import Mathlib

/-!
Verification development for the Code_Visualizer web debugger (src/a.py).

The file shallowly embeds the tracer core of `a.py`:
  * the safe value renderer `WebDebugger._safe_repr`,
  * the object-graph extractor `WebDebugger.extract_visualizables`,
  * the call-event log transitions `WebDebugger.user_call` / `user_return`,
  * the console-input interception `_one_time_input_mock` / `_custom_input_handler`,
  * the run orchestration `WebDebugger.run_debugger` (trace finalisation,
    stream restoration, suspension on input),
  * the traceback sanitizer `sanitize_traceback_paths`.

Python values are modelled as primitives plus references into an explicit
heap keyed by object identity (CPython `id`).  Python's bounded recursion is
modelled by a fuel parameter: a renderer call returns `none` exactly where
CPython would raise `RecursionError`.  Python dicts that the code iterates
are modelled as insertion-ordered association lists.  All definitions are
executable so concrete runs can be evaluated inside proofs.
-/

namespace CodeVisualizer

/-! ### Character/string helpers

`String.trim`, `String.startsWith`, `String.toLower`, string comparison and
`splitlines` from the Lean library are iterator-based and do not reduce in
the kernel, so the corresponding operations used by the embedded code are
re-implemented over `List Char`. -/

/-- Lexicographic comparison of character lists by code point, the order
CPython uses to compare `str` values. -/
def charsLe : List Char → List Char → Bool
  | [], _ => true
  | _ :: _, [] => false
  | a :: as, b :: bs =>
    if a.toNat < b.toNat then true
    else if b.toNat < a.toNat then false
    else charsLe as bs

/-- CPython string `<=`. -/
def strLe (a b : String) : Bool := charsLe a.data b.data

/-- `len` of a Python string (number of characters). -/
def strLen (s : String) : Nat := s.data.length

/-- Python slicing `s[:n]`. -/
def strTake (s : String) (n : Nat) : String := ⟨s.data.take n⟩

/-- Substring containment, Python's `pat in s`. -/
def strContains (s pat : String) : Bool :=
  (s.data.tails).any (fun t => pat.data.isPrefixOf t)

/-- Python `s.startswith(p)`. -/
def strStarts (s p : String) : Bool := p.data.isPrefixOf s.data

/-- Characters treated as whitespace by Python's `str.strip`. -/
def isPySpace (c : Char) : Bool :=
  c = ' ' || c = '\t' || c = '\n' || c = '\r' || c = '\x0b' || c = '\x0c'

/-- Python `s.strip()`. -/
def strStrip (s : String) : String :=
  ⟨((s.data.dropWhile isPySpace).reverse.dropWhile isPySpace).reverse⟩

/-- ASCII lower-casing of one character (`str.lower` restricted to ASCII,
which covers every path the sanitizer compares against). -/
def asciiLower (c : Char) : Char :=
  if 'A' ≤ c && c ≤ 'Z' then Char.ofNat (c.toNat + 32) else c

/-- Python `s.lower()` (ASCII fragment). -/
def strLower (s : String) : String := ⟨s.data.map asciiLower⟩

/-- Python `s.replace("\\", "/")` (single-character replacement). -/
def backslashToSlash (s : String) : String :=
  ⟨s.data.map (fun c => if c = '\\' then '/' else c)⟩

/-- Helper for `splitlines`. -/
def splitlinesAux : List Char → List Char → List (List Char)
  | [], acc => [acc.reverse]
  | '\n' :: rest, acc => acc.reverse :: splitlinesAux rest []
  | c :: rest, acc => splitlinesAux rest (c :: acc)

/-- Python `str.splitlines()` for newline-separated text: no entry is
produced after a trailing newline and the empty string yields `[]`. -/
def splitlines (s : String) : List String :=
  match s.data with
  | [] => []
  | l =>
    let segs := (splitlinesAux l []).map (fun cs => (⟨cs⟩ : String))
    if l.getLast? = some '\n' then segs.dropLast else segs

/-- Lowercase hexadecimal digits of `n`, as produced by Python's `hex`
without the `0x` marker. -/
def hexDigits (n : Nat) : String := ⟨Nat.toDigits 16 n⟩

/-- Python `hex(n)` / the `f"0x{n:x}"` format used for memory addresses. -/
def hexAddr (n : Nat) : String := "0x" ++ hexDigits n

/-- Stable insertion into a `le`-sorted list (insert before the first
element the new one is `le`-related to). -/
def insertBy (le : α → α → Bool) (a : α) : List α → List α
  | [] => [a]
  | b :: l => if le a b then a :: b :: l else b :: insertBy le a l

/-- Stable sort used to model Python's (stable) `sorted` / `list.sort`. -/
def sortBy (le : α → α → Bool) : List α → List α
  | [] => []
  | a :: l => insertBy le a (sortBy le l)

theorem perm_insertBy (le : α → α → Bool) (a : α) (l : List α) :
    (insertBy le a l).Perm (a :: l) := by
  induction l with
  | nil => simp [insertBy]
  | cons b t ih =>
    simp only [insertBy]
    by_cases h : le a b
    · simp [h]
    · simp only [h, if_neg, Bool.false_eq_true, if_false]
      exact (ih.cons b).trans (List.Perm.swap a b t)

theorem perm_sortBy (le : α → α → Bool) (l : List α) :
    (sortBy le l).Perm l := by
  induction l with
  | nil => simp [sortBy]
  | cons a t ih => exact (perm_insertBy le a (sortBy le t)).trans (ih.cons a)

theorem mem_sortBy {le : α → α → Bool} {l : List α} {x : α} :
    x ∈ sortBy le l ↔ x ∈ l :=
  (perm_sortBy le l).mem_iff

theorem length_sortBy (le : α → α → Bool) (l : List α) :
    (sortBy le l).length = l.length :=
  (perm_sortBy le l).length_eq

/-! ### The value and heap model

A value is a primitive (rendered inline, never a graph node) or a reference
to a heap object.  A heap object is one of the aggregate shapes the
extractor distinguishes: list/tuple/deque ("array"-like), dict, set, or a
class instance with named fields.  The heap maps object identities
(CPython `id` results) to objects. -/

/-- Object identity, the value of CPython's `id`. -/
abbrev ObjId := Nat

/-- A Python value as the debugger sees it. -/
inductive Val where
  | vint (n : Int)
  | vbool (b : Bool)
  | vnone
  | vstr (s : String)
  | ref (i : ObjId)
  deriving DecidableEq

/-- A heap object.  `objRec` models a user-defined class instance
(`__dict__`/`__slots__` merged into one ordered field list, as the source
builds `attrs`). -/
inductive Obj where
  | plist (elems : List Val)
  | ptuple (elems : List Val)
  | pdeque (elems : List Val)
  | pdict (pairs : List (Val × Val))
  | pset (elems : List Val)
  | objRec (className : String) (fields : List (String × Val))
  deriving DecidableEq

/-- The heap: identity-keyed association list of live objects. -/
abbrev Heap := List (ObjId × Obj)

def heapLookup (h : Heap) (i : ObjId) : Option Obj :=
  (h.find? (fun p => p.1 == i)).map (fun p => p.2)

/-- `type(obj).__name__` for model objects. -/
def typeNameOf : Obj → String
  | .plist _ => "list"
  | .ptuple _ => "tuple"
  | .pdeque _ => "deque"
  | .pdict _ => "dict"
  | .pset _ => "set"
  | .objRec c _ => c

/-- `len(obj)` for model containers; fields count for class instances. -/
def objLen : Obj → Nat
  | .plist es => es.length
  | .ptuple es => es.length
  | .pdeque es => es.length
  | .pdict ps => ps.length
  | .pset es => es.length
  | .objRec _ fs => fs.length

/-- `WebDebugger._is_visualizable_candidate`: containers and user-class
instances are candidates; primitives (and callables/modules/classes, which
the model does not contain) are not.  Model heap objects are exactly the
candidate shapes, so a reference is always a candidate. -/
def is_visualizable_candidate : Val → Bool
  | .ref _ => true
  | _ => false

/-- The `vizType` tag `extract_visualizables` assigns from `isinstance`
checks (`numpy_array` is unreachable here: the model contains no numpy
values). -/
def vizTypeForObj : Obj → String
  | .plist _ => "array"
  | .ptuple _ => "array"
  | .pdict _ => "dict"
  | .pdeque _ => "deque"
  | .pset _ => "set"
  | .objRec _ _ => "object"

/-- `vizType` of a value (only references reach this in the source). -/
def vizTypeOfVal (h : Heap) : Val → String
  | .ref i =>
    match heapLookup h i with
    | some o => vizTypeForObj o
    | none => "object"
  | _ => "object"

/-! ### `WebDebugger._safe_repr`

The renderer is embedded with a fuel parameter modelling CPython's bounded
call stack: `none` is the `RecursionError` CPython raises when the nested
rendering of a value does not bottom out.  Each Python-level recursive call
consumes one unit of fuel.  In the source the reference-marker test runs
before the primitive tests; in the model primitives carry no identity and
are never tracked, so dispatching on the value first is equivalent. -/

/-- All-or-nothing effectful map over a list: the rendering of a list of
children, where a `RecursionError` (`none`) in any child propagates. -/
def optionMapAll (f : α → Option β) : List α → Option (List β)
  | [] => some []
  | a :: t =>
    match f a with
    | none => none
    | some b => (optionMapAll f t).map (fun bs => b :: bs)

/-- Python `repr` of a primitive (strings assumed free of characters that
`repr` would escape). -/
def primRepr : Val → String
  | .vint n => toString n
  | .vbool b => if b then "True" else "False"
  | .vnone => "None"
  | .vstr s => "\x27" ++ s ++ "\x27"
  | .ref _ => ""

/-- The `obj_type_name` label embedded in a reference marker:
`type(obj).__name__`, suffixed with `[len]` for the container types. -/
def refTypeLabel (h : Heap) (i : ObjId) : String :=
  match heapLookup h i with
  | some (.objRec c _) => c
  | some o => typeNameOf o ++ "[" ++ toString (objLen o) ++ "]"
  | none => "object"

/-- The reference-marker `<span>` emitted instead of inlining a tracked
value. -/
def refMarker (h : Heap) (i : ObjId) : String :=
  "<span class=\"ref-indicator\" data-ref-id=\"" ++ toString i ++
    "\" title=\"Ref to " ++ refTypeLabel h i ++ " @ " ++ hexAddr i ++
    "\">➔ " ++ refTypeLabel h i ++ "</span>"

/-- Sort key CPython computes for set previews:
`str(type(x)) + repr(x)`.  For primitive members (the hashable values sets
hold in practice) the key is exact; for reference members the model
abbreviates CPython's structural/default `repr`. -/
def setPreviewKey (h : Heap) : Val → String
  | .vint n => "<class \x27int\x27>" ++ toString n
  | .vbool b => "<class \x27bool\x27>" ++ (if b then "True" else "False")
  | .vnone => "<class \x27NoneType\x27>None"
  | .vstr s => "<class \x27str\x27>\x27" ++ s ++ "\x27"
  | .ref i =>
    match heapLookup h i with
    | some o => "<class \x27" ++ typeNameOf o ++ "\x27><" ++ typeNameOf o ++ ">"
    | none => "<object>"

/-- Default `repr(obj)` fallback for class instances
(`<ClassName object at 0x...>`). -/
def defaultObjRepr (className : String) (i : ObjId) : String :=
  "<" ++ className ++ " object at " ++ hexAddr i ++ ">"

/-- `WebDebugger._safe_repr(obj, max_len, context_id, tracked_ids)`.
Returns `none` where CPython raises `RecursionError`. -/
def safe_repr (h : Heap) (fuel : Nat) (v : Val) (maxLen : Nat)
    (contextId : Option ObjId) (trackedIds : List ObjId) : Option String :=
  match fuel with
  | 0 => none
  | f + 1 =>
    match v with
    | .vint n => some (toString n)
    | .vbool b => some (if b then "True" else "False")
    | .vnone => some "None"
    | .vstr s =>
      some (primRepr (.vstr (if strLen s > maxLen then strTake s maxLen ++ "..." else s)))
    | .ref i =>
      if trackedIds.contains i && !(some i == contextId) then
        some (refMarker h i)
      else
        match heapLookup h i with
        | none => some "<lost object>"
        | some o =>
          match o with
          | .plist es =>
            if es.isEmpty then some "[]" else do
              let items ← optionMapAll
                (fun e => safe_repr h f e 25 contextId trackedIds) (es.take 3)
              let ell := if es.length > 3 then ", ... (" ++ toString es.length ++ ")" else ""
              pure ("[" ++ String.intercalate ", " items ++ ell ++ "]")
          | .pdeque es =>
            if es.isEmpty then some "deque([])" else do
              let items ← optionMapAll
                (fun e => safe_repr h f e 25 contextId trackedIds) (es.take 3)
              let ell := if es.length > 3 then ", ... (" ++ toString es.length ++ ")" else ""
              pure ("deque([" ++ String.intercalate ", " items ++ ell ++ "])")
          | .ptuple es =>
            if es.isEmpty then some "()" else do
              let items ← optionMapAll
                (fun e => safe_repr h f e 25 contextId trackedIds) (es.take 3)
              let ell := if es.length > 3 then ", ... (" ++ toString es.length ++ ")" else ""
              let comma := if es.length = 1 then "," else ""
              pure ("(" ++ String.intercalate ", " items ++ comma ++ ell ++ ")")
          | .pset es =>
            if es.isEmpty then some "set()" else do
              let sorted := sortBy (fun a b => strLe (setPreviewKey h a) (setPreviewKey h b)) es
              let items ← optionMapAll
                (fun e => safe_repr h f e 25 contextId trackedIds) (sorted.take 3)
              let ell := if es.length > 3 then ", ... (" ++ toString es.length ++ ")" else ""
              pure ("\x7b" ++ String.intercalate ", " items ++ ell ++ "\x7d")
          | .pdict ps =>
            if ps.isEmpty then some "\x7b\x7d" else do
              let items ← optionMapAll (fun kv => do
                let kr ← safe_repr h f kv.1 15 contextId trackedIds
                let vr ← safe_repr h f kv.2 25 contextId trackedIds
                pure (kr ++ ": " ++ vr)) (ps.take 3)
              let ell := if ps.length > 3 then ", ... (" ++ toString ps.length ++ ")" else ""
              pure ("\x7b" ++ String.intercalate ", " items ++ ell ++ "\x7d")
          | .objRec c _ =>
            let r := defaultObjRepr c i
            some (if strLen r > maxLen then strTake r maxLen ++ "..." else r)

/-! ### `WebDebugger.extract_visualizables`, phase 1: seeding and BFS

`object_info_map` is an insertion-ordered association list (a Python dict
keyed by `id`).  The worklist and the `visited_for_bfs_ids` set are kept as
in the source. -/

/-- One entry of `object_info_map`. -/
structure NodeData where
  item : Val
  names : List String
  vizType : String
  isDirect : Bool
  visitedBfs : Bool
  deriving DecidableEq

abbrev InfoMap := List (ObjId × NodeData)

def lookupInfo (m : InfoMap) (i : ObjId) : Option NodeData :=
  (m.find? (fun p => p.1 == i)).map (fun p => p.2)

def updateInfo (m : InfoMap) (i : ObjId) (f : NodeData → NodeData) : InfoMap :=
  m.map (fun p => if p.1 == i then (p.1, f p.2) else p)

/-- Adding one name to a Python `set` of names (insertion-ordered view;
the display phase sorts it anyway). -/
def addName (n : String) (ns : List String) : List String :=
  if ns.contains n then ns else ns ++ [n]

/-- Traversal state: the map, the BFS worklist, `visited_for_bfs_ids`. -/
structure ExtractSt where
  m : InfoMap
  queue : List Val
  visitedIds : List ObjId

/-- The seeding loop body of `extract_visualizables` (lines 261-285): one
`(var_name, var_value)` binding of the scope mapping. -/
def seedOne (h : Heap) (st : ExtractSt) (nv : String × Val) : ExtractSt :=
  if strStarts nv.1 "__" || !is_visualizable_candidate nv.2 then st
  else
    match nv.2 with
    | .ref i =>
      match lookupInfo st.m i with
      | none =>
        let d : NodeData := ⟨nv.2, [nv.1], vizTypeOfVal h nv.2, true, false⟩
        let m' := st.m ++ [(i, d)]
        if st.visitedIds.contains i then ⟨m', st.queue, st.visitedIds⟩
        else ⟨m', st.queue ++ [nv.2], st.visitedIds ++ [i]⟩
      | some _ =>
        ⟨updateInfo st.m i
          (fun d => { d with names := addName nv.1 d.names, isDirect := true }),
          st.queue, st.visitedIds⟩
    | _ => st

/-- `children_to_check` for one dequeued object (lines 294-331): all fields
for class instances; the first 30 elements for sequences/deques/sets; for
dicts the first 30 pairs, keys and values each filtered by candidacy. -/
def childrenToCheck (o : Obj) : List (String × Val) :=
  match o with
  | .objRec _ fs => fs
  | .plist es =>
    (es.take 30).enum.map (fun p => ("_arr_elem_" ++ toString p.1, p.2))
  | .ptuple es =>
    (es.take 30).enum.map (fun p => ("_arr_elem_" ++ toString p.1, p.2))
  | .pdeque es =>
    (es.take 30).enum.map (fun p => ("_arr_elem_" ++ toString p.1, p.2))
  | .pdict ps =>
    ((ps.take 30).enum).foldr (fun p acc =>
      (if is_visualizable_candidate p.2.1
        then [("_dict_KEY_" ++ toString p.1, p.2.1)] else []) ++
      (if is_visualizable_candidate p.2.2
        then [("_dict_VAL_" ++ toString p.1, p.2.2)] else []) ++ acc) []
  | .pset es =>
    (es.take 30).enum.map (fun p => ("_set_elem_" ++ toString p.1, p.2))

/-- Processing one discovered child value (lines 332-352). -/
def bfsChild (h : Heap) (st : ExtractSt) (child : String × Val) : ExtractSt :=
  if !is_visualizable_candidate child.2 then st
  else
    match child.2 with
    | .ref cid =>
      let m' :=
        match lookupInfo st.m cid with
        | none => st.m ++ [(cid, ⟨child.2, [], vizTypeOfVal h child.2, false, false⟩)]
        | some _ => st.m
      if st.visitedIds.contains cid then ⟨m', st.queue, st.visitedIds⟩
      else ⟨m', st.queue ++ [child.2], st.visitedIds ++ [cid]⟩
    | _ => st

/-- The BFS loop (lines 286-352).  `budget` is the remaining number of
dequeues allowed by `MAX_TRAVERSAL_ITEMS = 500`; the returned `Nat` is
`items_processed_bfs`.  Only references are ever enqueued, so the
non-reference case is unreachable. -/
def bfsLoop (h : Heap) (budget : Nat) (st : ExtractSt) (processed : Nat) :
    InfoMap × Nat :=
  match budget with
  | 0 => (st.m, processed)
  | b + 1 =>
    match st.queue with
    | [] => (st.m, processed)
    | v :: rest =>
      let processed' := processed + 1
      match v with
      | .ref cid =>
        match lookupInfo st.m cid with
        | none => bfsLoop h b ⟨st.m, rest, st.visitedIds⟩ processed'
        | some d =>
          if d.visitedBfs then bfsLoop h b ⟨st.m, rest, st.visitedIds⟩ processed'
          else
            let m1 := updateInfo st.m cid (fun d0 => { d0 with visitedBfs := true })
            let children :=
              match heapLookup h cid with
              | some o => childrenToCheck o
              | none => []
            bfsLoop h b (children.foldl (bfsChild h) ⟨m1, rest, st.visitedIds⟩) processed'
      | _ => bfsLoop h b ⟨st.m, rest, st.visitedIds⟩ processed'

/-- Seeding followed by the budgeted BFS: `object_info_map` and the final
`items_processed_bfs` count. -/
def extract_phase1 (h : Heap) (scopeVars : List (String × Val)) : InfoMap × Nat :=
  bfsLoop h 500 (scopeVars.foldl (seedOne h) ⟨[], [], []⟩) 0

/-! ### `extract_visualizables`, phase 2: per-node display records

Each `object_info_map` entry yields exactly one display record (the
formatting `try`/`except` appends either `item_info` or `item_info` plus an
`error` key).  Rendering failure paths mirror the source: a `RecursionError`
inside a container branch is caught by that branch's `except`, which
replaces the payload with an error entry while keeping the references
accumulated so far; in the `object` branch it is caught by the outer
`except e_format`, which sets the node-level error field. -/

/-- `str(RecursionError(...))` as interpolated by `f"...{e}"`. -/
def recursionMsg : String := "maximum recursion depth exceeded"

/-- `repr(RecursionError(...))` as produced by `self._safe_repr(e)`. -/
def recursionReprMsg : String :=
  "RecursionError(\x27maximum recursion depth exceeded\x27)"

/-- `type(value).__name__` for a model value. -/
def valTypeName (h : Heap) : Val → String
  | .vint _ => "int"
  | .vbool _ => "bool"
  | .vnone => "NoneType"
  | .vstr _ => "str"
  | .ref i =>
    match heapLookup h i with
    | some o => typeNameOf o
    | none => "object"

/-- `vizType` recorded in the map for a target id (`object_info_map[id]`).
Defined for every id in `all_visualized_ids`. -/
def vizInMap (m : InfoMap) (i : ObjId) : String :=
  match lookupInfo m i with
  | some d => d.vizType
  | none => "object"

structure FieldEntry where
  fname : String
  value : String
  ftype : String
  deriving DecidableEq

structure ElemEntry where
  index : Nat
  valueRepr : String
  deriving DecidableEq

structure PairEntry where
  keyRepr : String
  valueRepr : String
  deriving DecidableEq

structure RefEntry where
  fieldName : String
  targetId : ObjId
  targetType : String
  deriving DecidableEq

inductive NodePayload where
  | objectP (fields : List FieldEntry)
  | arrayP (elements : List ElemEntry) (lengthStr : String)
  | dictP (pairs : List PairEntry) (lengthStr : String)
  | setP (elements : List String) (lengthStr : String)
  | bare
  deriving DecidableEq

/-- One element of `visualizables_to_display`. `names` is the
(`sorted`) display-name set the source joins into `name`; it is carried
explicitly so aliasing properties can refer to it. -/
structure NodeOut where
  vizType : String
  idN : ObjId
  name : String
  names : List String
  typeName : String
  memoryAddress : String
  hasDirect : Bool
  references : List RefEntry
  payload : NodePayload
  errorField : Option String
  deriving DecidableEq

/-- `f"{x[:n]}{'...' if len(x) > n else ''}"` truncation used for
reference labels. -/
def truncLabel (s : String) (n : Nat) : String :=
  strTake s n ++ (if strLen s > n then "..." else "")

/-- The reference entry appended when a rendered child's id is tracked. -/
def refIfTracked (m : InfoMap) (allIds : List ObjId) (label : String) (v : Val) :
    List RefEntry :=
  match v with
  | .ref i => if allIds.contains i then [⟨label, i, vizInMap m i⟩] else []
  | _ => []

/-- The `object` branch field loop (lines 366-390).  Returns the fields,
references and the node-level formatting error, if any. -/
def objectFieldsLoop (h : Heap) (fuel : Nat) (itemId : ObjId) (m : InfoMap)
    (allIds : List ObjId) :
    List (String × Val) → List FieldEntry → List RefEntry →
    List FieldEntry × List RefEntry × Option String
  | [], accF, accR => (accF.reverse, accR.reverse, none)
  | (fn, fv) :: rest, accF, accR =>
    if strStarts fn "__" then objectFieldsLoop h fuel itemId m allIds rest accF accR
    else
      match safe_repr h fuel fv 150 (some itemId) allIds with
      | none => (accF.reverse, accR.reverse, some ("Formatting Error: " ++ recursionMsg))
      | some r =>
        objectFieldsLoop h fuel itemId m allIds rest
          (⟨fn, r, valTypeName h fv⟩ :: accF)
          ((refIfTracked m allIds fn fv).reverse ++ accR)

/-- The `array`/`deque` branch element loop (lines 395-412). -/
def arrayElemsLoop (h : Heap) (fuel : Nat) (itemId : ObjId) (m : InfoMap)
    (allIds : List ObjId) :
    List Val → Nat → List ElemEntry → List RefEntry →
    List ElemEntry × List RefEntry × String
  | [], idx, accE, accR => (accE.reverse, accR.reverse, toString idx)
  | e :: rest, idx, accE, accR =>
    match safe_repr h fuel e 150 (some itemId) allIds with
    | none =>
      ([⟨0, "<Error: " ++ recursionReprMsg ++ ">"⟩], accR.reverse, "?")
    | some r =>
      arrayElemsLoop h fuel itemId m allIds rest (idx + 1)
        (⟨idx, r⟩ :: accE)
        ((refIfTracked m allIds ("[" ++ toString idx ++ "]") e).reverse ++ accR)

/-- The `dict` branch pair loop (lines 414-444). -/
def dictPairsLoop (h : Heap) (fuel : Nat) (itemId : ObjId) (m : InfoMap)
    (allIds : List ObjId) :
    List (Val × Val) → Nat → List PairEntry → List RefEntry →
    List PairEntry × List RefEntry × String
  | [], cnt, accP, accR => (accP.reverse, accR.reverse, toString cnt)
  | (k, v) :: rest, cnt, accP, accR =>
    match safe_repr h fuel k 150 (some itemId) allIds with
    | none => ([⟨"<Error>", recursionReprMsg⟩], accR.reverse, "?")
    | some kr =>
      match safe_repr h fuel v 150 (some itemId) allIds with
      | none => ([⟨"<Error>", recursionReprMsg⟩], accR.reverse, "?")
      | some vr =>
        let keyRefs := refIfTracked m allIds ("key_obj(" ++ truncLabel kr 15 ++ ")") k
        let valRefs := refIfTracked m allIds ("val_for_key(" ++ truncLabel kr 15 ++ ")") v
        dictPairsLoop h fuel itemId m allIds rest (cnt + 1)
          (⟨kr, vr⟩ :: accP)
          (valRefs.reverse ++ keyRefs.reverse ++ accR)

/-- The `set` branch element loop (lines 455-467), after sorting. -/
def setElemsLoop (h : Heap) (fuel : Nat) (itemId : ObjId) (m : InfoMap)
    (allIds : List ObjId) :
    List Val → Nat → List String → List RefEntry →
    List String × List RefEntry × String
  | [], cnt, accE, accR => (accE.reverse, accR.reverse, toString cnt)
  | e :: rest, cnt, accE, accR =>
    match safe_repr h fuel e 150 (some itemId) allIds with
    | none =>
      (["<Error: " ++ recursionReprMsg ++ ">"], accR.reverse, "?")
    | some r =>
      setElemsLoop h fuel itemId m allIds rest (cnt + 1)
        (r :: accE)
        ((refIfTracked m allIds ("elem(" ++ truncLabel r 20 ++ ")") e).reverse ++ accR)

/-- The sort key for `set` display elements:
`sorted(list(item_obj), key=lambda x: self._safe_repr(x))` with default
arguments. When every key renders (the case in which the sorted order is
used) the `getD` default is never consulted. -/
def setDisplayKey (h : Heap) (fuel : Nat) (x : Val) : String :=
  (safe_repr h fuel x 150 none []).getD ""

/-- Building one `item_info` record for one `object_info_map` entry
(lines 356-514). -/
def displayNode (h : Heap) (fuel : Nat) (m : InfoMap) (allIds : List ObjId)
    (entry : ObjId × NodeData) : NodeOut :=
  let itemId := entry.1
  let d := entry.2
  let nameParts := sortBy strLe d.names
  let finalName :=
    if nameParts.isEmpty then "<" ++ d.vizType ++ " @ " ++ hexAddr itemId ++ ">"
    else String.intercalate ", " nameParts
  let base : NodeOut :=
    ⟨d.vizType, itemId, finalName, nameParts, valTypeName h d.item,
      "0x" ++ hexDigits itemId, d.isDirect, [], .bare, none⟩
  match heapLookup h itemId with
  | some (.objRec _ fs) =>
    let r := objectFieldsLoop h fuel itemId m allIds fs [] []
    { base with payload := .objectP r.1, references := r.2.1, errorField := r.2.2 }
  | some (.plist es) =>
    let r := arrayElemsLoop h fuel itemId m allIds es 0 [] []
    { base with payload := .arrayP r.1 r.2.2, references := r.2.1 }
  | some (.ptuple es) =>
    let r := arrayElemsLoop h fuel itemId m allIds es 0 [] []
    { base with payload := .arrayP r.1 r.2.2, references := r.2.1 }
  | some (.pdeque es) =>
    let r := arrayElemsLoop h fuel itemId m allIds es 0 [] []
    { base with payload := .arrayP r.1 r.2.2, references := r.2.1 }
  | some (.pdict ps) =>
    let r := dictPairsLoop h fuel itemId m allIds ps 0 [] []
    { base with payload := .dictP r.1 r.2.2, references := r.2.1 }
  | some (.pset es) =>
    match optionMapAll (fun x => safe_repr h fuel x 150 none []) es with
    | none =>
      { base with
          payload := .setP ["<Error: " ++ recursionReprMsg ++ ">"] "?" }
    | some _ =>
      let sorted := sortBy (fun a b => strLe (setDisplayKey h fuel a) (setDisplayKey h fuel b)) es
      let r := setElemsLoop h fuel itemId m allIds sorted 0 [] []
      { base with payload := .setP r.1 r.2.2, references := r.2.1 }
  | none => base

/-- Priority used by the final ordering (line 515-518). -/
def vizPriority (t : String) : Nat :=
  if t == "object" then 0
  else if t == "dict" then 1
  else if t == "set" then 2
  else if t == "array" then 3
  else if t == "numpy_array" then 3
  else if t == "deque" then 3
  else 4

/-- The sort key ordering `(not has_direct_reference, priority, name)`. -/
def nodeSortLe (x y : NodeOut) : Bool :=
  let bx := if x.hasDirect then 0 else 1
  let by' := if y.hasDirect then 0 else 1
  if bx < by' then true
  else if by' < bx then false
  else if vizPriority x.vizType < vizPriority y.vizType then true
  else if vizPriority y.vizType < vizPriority x.vizType then false
  else strLe x.name y.name

/-- `WebDebugger.extract_visualizables(variables)` (lines 254-519).
`fuel` is the recursion headroom available to each top-level render call. -/
def extract_visualizables (h : Heap) (fuel : Nat)
    (scopeVars : List (String × Val)) : List NodeOut :=
  let m := (extract_phase1 h scopeVars).1
  let allIds := m.map (fun p => p.1)
  sortBy nodeSortLe (m.map (displayNode h fuel m allIds))

/-! ### Invariants of the extraction map -/

/-- The key list of `object_info_map`. -/
def keysOf (m : InfoMap) : List ObjId := m.map (fun p => p.1)

theorem lookupInfo_cons (p : ObjId × NodeData) (t : InfoMap) (i : ObjId) :
    lookupInfo (p :: t) i = if p.1 == i then some p.2 else lookupInfo t i := by
  by_cases h : p.1 == i <;> simp [lookupInfo, List.find?_cons, h]

theorem lookupInfo_append' (m l : InfoMap) (i : ObjId) :
    lookupInfo (m ++ l) i = (lookupInfo m i).or (lookupInfo l i) := by
  induction m with
  | nil => simp [lookupInfo]
  | cons p t ih =>
    by_cases h : p.1 == i <;>
      simp [List.cons_append, lookupInfo_cons, h, ih, Option.or]

theorem lookupInfo_append {m : InfoMap} (l : InfoMap) {i : ObjId} {d : NodeData}
    (h : lookupInfo m i = some d) : lookupInfo (m ++ l) i = some d := by
  simp [lookupInfo_append', h, Option.or]

theorem lookupInfo_append_fresh {m : InfoMap} {i : ObjId} (d : NodeData)
    (h : lookupInfo m i = none) : lookupInfo (m ++ [(i, d)]) i = some d := by
  simp [lookupInfo_append', h, Option.or, lookupInfo_cons]

theorem lookupInfo_eq_none_iff {m : InfoMap} {i : ObjId} :
    lookupInfo m i = none ↔ i ∉ keysOf m := by
  induction m with
  | nil => simp [lookupInfo, keysOf]
  | cons p t ih =>
    by_cases h : p.1 == i
    · simp only [beq_iff_eq] at h
      simp [lookupInfo_cons, keysOf, h]
    · simp only [beq_iff_eq] at h
      simp only [lookupInfo_cons, beq_iff_eq, if_neg h, keysOf, List.map_cons,
        List.mem_cons]
      rw [ih]
      simp only [keysOf]
      constructor
      · rintro hni (he | hm)
        · exact h he.symm
        · exact hni hm
      · intro hni hm
        exact hni (Or.inr hm)

theorem lookupInfo_mem {m : InfoMap} {i : ObjId} {d : NodeData}
    (h : lookupInfo m i = some d) : (i, d) ∈ m := by
  induction m with
  | nil => simp [lookupInfo] at h
  | cons p t ih =>
    rw [lookupInfo_cons] at h
    by_cases hk : p.1 == i
    · simp only [hk, if_true, Option.some_inj] at h
      simp only [beq_iff_eq] at hk
      obtain ⟨pa, pb⟩ := p
      simp only at h hk
      subst h
      subst hk
      exact List.mem_cons_self _ _
    · simp only [hk, Bool.false_eq_true, if_false] at h
      exact List.mem_cons_of_mem _ (ih h)

theorem lookupInfo_of_mem {m : InfoMap} {i : ObjId} {d : NodeData}
    (hn : (keysOf m).Nodup) (hm : (i, d) ∈ m) : lookupInfo m i = some d := by
  induction m with
  | nil => simp at hm
  | cons p t ih =>
    simp only [keysOf, List.map_cons, List.nodup_cons] at hn
    rcases List.mem_cons.1 hm with h | h
    · subst h
      simp [lookupInfo_cons]
    · have hne : ¬(p.1 == i) := by
        simp only [beq_iff_eq]
        intro he
        exact hn.1 (by
          refine List.mem_map.2 ⟨(i, d), h, ?_⟩
          simp [he])
      rw [lookupInfo_cons, if_neg hne]
      exact ih hn.2 h

theorem keysOf_update (m : InfoMap) (i : ObjId) (f : NodeData → NodeData) :
    keysOf (updateInfo m i f) = keysOf m := by
  induction m with
  | nil => rfl
  | cons p t ih =>
    simp only [updateInfo, keysOf, List.map_cons] at ih ⊢
    by_cases h : p.1 == i
    · simp only [h, if_true, List.map_cons]
      exact congrArg _ ih
    · simp only [h, Bool.false_eq_true, if_false, List.map_cons]
      exact congrArg _ ih

theorem lookupInfo_update (m : InfoMap) (i : ObjId) (f : NodeData → NodeData)
    (j : ObjId) :
    lookupInfo (updateInfo m i f) j =
      (lookupInfo m j).map (fun d => if j == i then f d else d) := by
  induction m with
  | nil => rfl
  | cons p t ih =>
    simp only [updateInfo, List.map_cons] at ih ⊢
    by_cases hpi : p.1 == i
    · by_cases hpj : p.1 == j
      · have hji : (j == i) = true := by
          have h1 : p.1 = i := by simpa using hpi
          have h2 : p.1 = j := by simpa using hpj
          simp [← h1, ← h2]
        simp [lookupInfo_cons, hpi, hpj, hji]
      · simp only [lookupInfo_cons, hpi, if_true]
        have : ((p.1, f p.2).1 == j) = false := by
          simpa using hpj
        simp only [this, Bool.false_eq_true, if_false, hpj]
        exact ih
    · by_cases hpj : p.1 == j
      · have hji : (j == i) = false := by
          have h1 : ¬p.1 = i := by simpa using hpi
          have h2 : p.1 = j := by simpa using hpj
          rw [beq_eq_false_iff_ne]
          exact fun he => h1 (h2.trans he)
        simp [lookupInfo_cons, hpi, hpj, hji]
      · simp only [lookupInfo_cons, hpi, Bool.false_eq_true, if_false, hpj]
        exact ih

theorem length_updateInfo (m : InfoMap) (i : ObjId) (f : NodeData → NodeData) :
    (updateInfo m i f).length = m.length := by
  simp [updateInfo]

/-! ### Preservation of names and key-uniqueness through extraction -/

/-- Identity `i` carries display name `n` in the map. -/
def hasName (m : InfoMap) (i : ObjId) (n : String) : Prop :=
  ∃ d, lookupInfo m i = some d ∧ n ∈ d.names

theorem hasName_append {m : InfoMap} (l : InfoMap) {i : ObjId} {n : String}
    (h : hasName m i n) : hasName (m ++ l) i n := by
  obtain ⟨d, hl, hn⟩ := h
  exact ⟨d, lookupInfo_append l hl, hn⟩

theorem hasName_update {m : InfoMap} {i : ObjId} {n : String} (j : ObjId)
    (f : NodeData → NodeData) (hf : ∀ d, n ∈ d.names → n ∈ (f d).names)
    (h : hasName m i n) : hasName (updateInfo m j f) i n := by
  obtain ⟨d, hl, hn⟩ := h
  rw [hasName, lookupInfo_update, hl]
  by_cases hij : i == j
  · exact ⟨f d, by simp [hij], hf d hn⟩
  · exact ⟨d, by simp [hij], hn⟩

theorem mem_addName {n n' : String} {ns : List String} (h : n ∈ ns) :
    n ∈ addName n' ns := by
  unfold addName
  split
  · exact h
  · exact List.mem_append_left _ h

theorem mem_addName_self (n : String) (ns : List String) :
    n ∈ addName n ns := by
  unfold addName
  split
  next h => exact List.mem_of_elem_eq_true h
  next => exact List.mem_append_right _ (List.mem_singleton.2 rfl)

/-- A fold preserves any property each step preserves. -/
theorem foldl_preserve {α β : Type} {P : α → Prop} (f : α → β → α) (l : List β)
    (hstep : ∀ a b, b ∈ l → P a → P (f a b)) {a : α} (ha : P a) :
    P (l.foldl f a) := by
  induction l generalizing a with
  | nil => exact ha
  | cons b t ih =>
    exact ih (fun a' b' hb' => hstep a' b' (List.mem_cons_of_mem _ hb'))
      (hstep a b (List.mem_cons_self _ _) ha)

/-- A fold establishes a property some processed element establishes,
provided each later step preserves it. -/
theorem foldl_establish {α β : Type} {P : α → Prop} (f : α → β → α) (l : List β)
    {b₀ : β} (hmem : b₀ ∈ l) (hest : ∀ a, P (f a b₀))
    (hstep : ∀ a b, P a → P (f a b)) {a : α} :
    P (l.foldl f a) := by
  induction l generalizing a with
  | nil => simp at hmem
  | cons b t ih =>
    rcases List.mem_cons.1 hmem with hb | hb
    · subst hb
      exact foldl_preserve f t (fun a' b' _ => hstep a' b') (hest a)
    · exact ih hb


theorem seedOne_hasName (h : Heap) (st : ExtractSt) (nv : String × Val)
    {i : ObjId} {n : String} (hh : hasName st.m i n) :
    hasName (seedOne h st nv).m i n := by
  obtain ⟨nm, v⟩ := nv
  unfold seedOne
  split
  · exact hh
  · cases v with
    | ref j =>
      cases hl : lookupInfo st.m j with
      | none =>
        simp only [hl]
        split <;> exact hasName_append _ hh
      | some d =>
        simp only [hl]
        exact hasName_update j
          (fun d0 => { d0 with names := addName nm d0.names, isDirect := true })
          (fun d0 hd0 => mem_addName hd0) hh
    | vint nn => exact hh
    | vbool bb => exact hh
    | vnone => exact hh
    | vstr ss => exact hh

theorem seedOne_establishes (h : Heap) (st : ExtractSt) {n : String} {i : ObjId}
    (hd : strStarts n "__" = false) :
    hasName (seedOne h st (n, .ref i)).m i n := by
  unfold seedOne
  have hcond : (strStarts n "__" || !is_visualizable_candidate (Val.ref i)) = false := by
    simp [hd, is_visualizable_candidate]
  simp only [hcond, Bool.false_eq_true, if_false]
  cases hl : lookupInfo st.m i with
  | none =>
    simp only [hl]
    refine ⟨⟨Val.ref i, [n], vizTypeOfVal h (Val.ref i), true, false⟩, ?_,
      List.mem_singleton.2 rfl⟩
    have hfresh := lookupInfo_append_fresh
      (⟨Val.ref i, [n], vizTypeOfVal h (Val.ref i), true, false⟩ : NodeData) hl
    split <;> exact hfresh
  | some d =>
    simp only [hl]
    refine ⟨NodeData.mk d.item (addName n d.names) d.vizType true d.visitedBfs,
      ?_, ?_⟩
    · rw [lookupInfo_update, hl]
      simp
    · exact mem_addName_self n d.names

theorem bfsChild_hasName (h : Heap) (st : ExtractSt) (c : String × Val)
    {i : ObjId} {n : String} (hh : hasName st.m i n) :
    hasName (bfsChild h st c).m i n := by
  obtain ⟨nm, v⟩ := c
  unfold bfsChild
  split
  · exact hh
  · cases v with
    | ref j =>
      cases hl : lookupInfo st.m j with
      | none =>
        simp only [hl]
        split <;> exact hasName_append _ hh
      | some d =>
        simp only [hl]
        split <;> exact hh
    | vint nn => exact hh
    | vbool bb => exact hh
    | vnone => exact hh
    | vstr ss => exact hh

theorem bfsLoop_hasName (h : Heap) (budget : Nat) (st : ExtractSt)
    (processed : Nat) {i : ObjId} {n : String} (hh : hasName st.m i n) :
    hasName (bfsLoop h budget st processed).1 i n := by
  induction budget generalizing st processed with
  | zero => exact hh
  | succ b ih =>
    obtain ⟨m0, q0, vis0⟩ := st
    rw [bfsLoop]
    cases q0 with
    | nil => exact hh
    | cons v rest =>
      simp only
      cases v with
      | ref cid =>
        cases hl : lookupInfo m0 cid with
        | none =>
          simp only [hl]
          exact ih _ _ hh
        | some d =>
          simp only [hl]
          split
          · exact ih _ _ hh
          · refine ih _ _ ?_
            exact foldl_preserve _ _
              (fun a c _ hc => bfsChild_hasName h a c hc)
              (hasName_update cid (fun d0 => { d0 with visitedBfs := true })
                (fun d0 hd0 => hd0) hh)
      | vint nn => exact ih _ _ hh
      | vbool bb => exact ih _ _ hh
      | vnone => exact ih _ _ hh
      | vstr ss => exact ih _ _ hh

theorem keysOf_append (m : InfoMap) (l : InfoMap) :
    keysOf (m ++ l) = keysOf m ++ keysOf l := by
  simp [keysOf]

theorem nodup_keys_append_fresh {m : InfoMap} {i : ObjId} (d : NodeData)
    (hn : (keysOf m).Nodup) (hl : lookupInfo m i = none) :
    (keysOf (m ++ [(i, d)])).Nodup := by
  rw [keysOf_append]
  refine hn.append (List.nodup_singleton i) ?_
  intro a ha hb
  rw [show keysOf [(i, d)] = [i] from rfl, List.mem_singleton] at hb
  subst hb
  exact (lookupInfo_eq_none_iff.1 hl) ha

theorem seedOne_nodupKeys (h : Heap) (st : ExtractSt) (nv : String × Val)
    (hn : (keysOf st.m).Nodup) : (keysOf (seedOne h st nv).m).Nodup := by
  obtain ⟨nm, v⟩ := nv
  unfold seedOne
  split
  · exact hn
  · cases v with
    | ref j =>
      cases hl : lookupInfo st.m j with
      | none =>
        simp only [hl]
        split <;> exact nodup_keys_append_fresh _ hn hl
      | some d =>
        simp only [hl]
        rw [keysOf_update]
        exact hn
    | vint nn => exact hn
    | vbool bb => exact hn
    | vnone => exact hn
    | vstr ss => exact hn

theorem bfsChild_nodupKeys (h : Heap) (st : ExtractSt) (c : String × Val)
    (hn : (keysOf st.m).Nodup) : (keysOf (bfsChild h st c).m).Nodup := by
  obtain ⟨nm, v⟩ := c
  unfold bfsChild
  split
  · exact hn
  · cases v with
    | ref j =>
      cases hl : lookupInfo st.m j with
      | none =>
        simp only [hl]
        split <;> exact nodup_keys_append_fresh _ hn hl
      | some d =>
        simp only [hl]
        split <;> exact hn
    | vint nn => exact hn
    | vbool bb => exact hn
    | vnone => exact hn
    | vstr ss => exact hn

theorem bfsLoop_nodupKeys (h : Heap) (budget : Nat) (st : ExtractSt)
    (processed : Nat) (hn : (keysOf st.m).Nodup) :
    (keysOf (bfsLoop h budget st processed).1).Nodup := by
  induction budget generalizing st processed with
  | zero => exact hn
  | succ b ih =>
    obtain ⟨m0, q0, vis0⟩ := st
    rw [bfsLoop]
    cases q0 with
    | nil => exact hn
    | cons v rest =>
      simp only
      cases v with
      | ref cid =>
        cases hl : lookupInfo m0 cid with
        | none =>
          simp only [hl]
          exact ih _ _ hn
        | some d =>
          simp only [hl]
          split
          · exact ih _ _ hn
          · refine ih _ _ ?_
            refine foldl_preserve _ _
              (fun a c _ hc => bfsChild_nodupKeys h a c hc) ?_
            rw [show (⟨updateInfo m0 cid (fun d0 => { d0 with visitedBfs := true }),
              rest, vis0⟩ : ExtractSt).m = updateInfo m0 cid
                (fun d0 => { d0 with visitedBfs := true }) from rfl,
              keysOf_update]
            exact hn
      | vint nn => exact ih _ _ hn
      | vbool bb => exact ih _ _ hn
      | vnone => exact ih _ _ hn
      | vstr ss => exact ih _ _ hn

theorem phase1_nodupKeys (h : Heap) (sv : List (String × Val)) :
    (keysOf (extract_phase1 h sv).1).Nodup := by
  refine bfsLoop_nodupKeys _ _ _ _ ?_
  exact foldl_preserve _ _ (fun a b _ hb => seedOne_nodupKeys h a b hb)
    List.nodup_nil

theorem phase1_hasName (h : Heap) (sv : List (String × Val)) {n : String}
    {i : ObjId} (hmem : (n, Val.ref i) ∈ sv) (hd : strStarts n "__" = false) :
    hasName (extract_phase1 h sv).1 i n := by
  refine bfsLoop_hasName _ _ _ _ ?_
  exact foldl_establish _ _ hmem (fun a => seedOne_establishes h a hd)
    (fun a b hb => seedOne_hasName h a b hb)

theorem displayNode_idN (h : Heap) (fuel : Nat) (m : InfoMap)
    (allIds : List ObjId) (e : ObjId × NodeData) :
    (displayNode h fuel m allIds e).idN = e.1 := by
  unfold displayNode
  cases hl : heapLookup h e.1 with
  | none => simp [hl]
  | some o =>
    cases o with
    | pset es =>
      cases hm : optionMapAll (fun x => safe_repr h fuel x 150 none []) es <;>
        simp [hl, hm]
    | plist es => simp [hl]
    | ptuple es => simp [hl]
    | pdeque es => simp [hl]
    | pdict ps => simp [hl]
    | objRec c fs => simp [hl]

theorem displayNode_names (h : Heap) (fuel : Nat) (m : InfoMap)
    (allIds : List ObjId) (e : ObjId × NodeData) :
    (displayNode h fuel m allIds e).names = sortBy strLe e.2.names := by
  unfold displayNode
  cases hl : heapLookup h e.1 with
  | none => simp [hl]
  | some o =>
    cases o with
    | pset es =>
      cases hm : optionMapAll (fun x => safe_repr h fuel x 150 none []) es <;>
        simp [hl, hm]
    | plist es => simp [hl]
    | ptuple es => simp [hl]
    | pdeque es => simp [hl]
    | pdict ps => simp [hl]
    | objRec c fs => simp [hl]

theorem extract_mem_iff {h : Heap} {fuel : Nat} {sv : List (String × Val)}
    {nd : NodeOut} :
    nd ∈ extract_visualizables h fuel sv ↔
      ∃ e ∈ (extract_phase1 h sv).1,
        nd = displayNode h fuel (extract_phase1 h sv).1
          ((extract_phase1 h sv).1.map (fun p => p.1)) e := by
  unfold extract_visualizables
  rw [mem_sortBy, List.mem_map]
  constructor
  · rintro ⟨e, he, rfl⟩
    exact ⟨e, he, rfl⟩
  · rintro ⟨e, he, rfl⟩
    exact ⟨e, he, rfl⟩

/-- C1: two scope names bound to one identity collapse to a single graph
node carrying both display names. -/
theorem C1_alias_single_node (h : Heap) (fuel : Nat) (sv : List (String × Val))
    (i : ObjId) (n₁ n₂ : String)
    (h₁ : (n₁, Val.ref i) ∈ sv) (h₂ : (n₂, Val.ref i) ∈ sv)
    (hd₁ : strStarts n₁ "__" = false) (hd₂ : strStarts n₂ "__" = false) :
    ((extract_visualizables h fuel sv).filter (fun nd => nd.idN == i)).length = 1 ∧
    ∀ nd ∈ extract_visualizables h fuel sv, nd.idN = i →
      n₁ ∈ nd.names ∧ n₂ ∈ nd.names := by
  have hnodup := phase1_nodupKeys h sv
  have hn₁ := phase1_hasName h sv h₁ hd₁
  have hn₂ := phase1_hasName h sv h₂ hd₂
  set m := (extract_phase1 h sv).1 with hm
  have hmemKeys : i ∈ keysOf m := by
    obtain ⟨d, hl, _⟩ := hn₁
    by_contra hni
    rw [← lookupInfo_eq_none_iff] at hni
    rw [hl] at hni
    exact Option.noConfusion hni
  constructor
  · rw [← List.countP_eq_length_filter]
    unfold extract_visualizables
    rw [← hm]
    have hperm := perm_sortBy nodeSortLe
      (m.map (displayNode h fuel m (m.map (fun p => p.1))))
    rw [hperm.countP_eq]
    rw [List.countP_map]
    have hc : ∀ e ∈ m,
        (((fun nd => nd.idN == i) ∘
            displayNode h fuel m (m.map (fun p => p.1))) e = true ↔
          (fun e : ObjId × NodeData => e.1 == i) e = true) := by
      intro e _
      simp [Function.comp, displayNode_idN]
    rw [List.countP_congr hc]
    have : List.countP (fun e : ObjId × NodeData => e.1 == i) m =
        List.countP (fun k => k == i) (keysOf m) := by
      rw [keysOf, List.countP_map]
      rfl
    rw [this]
    have := List.count_eq_one_of_mem hnodup hmemKeys
    simpa [List.count] using this
  · intro nd hnd hid
    rw [extract_mem_iff] at hnd
    obtain ⟨e, he, rfl⟩ := hnd
    rw [displayNode_idN] at hid
    obtain ⟨ea, ed⟩ := e
    simp only at hid
    subst hid
    have hle : lookupInfo m ea = some ed := lookupInfo_of_mem hnodup he
    obtain ⟨d₁, hl₁, hm₁⟩ := hn₁
    obtain ⟨d₂, hl₂, hm₂⟩ := hn₂
    rw [hl₁] at hle
    have hd1 : d₁ = ed := Option.some_inj.1 hle
    rw [hl₁] at hl₂
    have hd2 : d₁ = d₂ := Option.some_inj.1 hl₂
    rw [displayNode_names]
    constructor
    · exact mem_sortBy.2 (hd1 ▸ hm₁)
    · exact mem_sortBy.2 (hd1 ▸ hd2 ▸ hm₂)

/-- Concrete scope for the C1 witness: `x = [1, 2]; y = x; z = {"a": x}`. -/
def aliasHeap : Heap :=
  [(10, .plist [.vint 1, .vint 2]), (20, .pdict [(.vstr "a", .ref 10)])]

def aliasScope : List (String × Val) :=
  [("x", .ref 10), ("y", .ref 10), ("z", .ref 20)]

set_option maxRecDepth 10000 in
theorem C1_alias_single_node_witness :
    ((extract_visualizables aliasHeap 100 aliasScope).filter
      (fun nd => nd.idN == 10)).length = 1 ∧
    ∀ nd ∈ extract_visualizables aliasHeap 100 aliasScope, nd.idN = 10 →
      "x" ∈ nd.names ∧ "y" ∈ nd.names :=
  C1_alias_single_node aliasHeap 100 aliasScope 10 "x" "y"
    (by decide) (by decide) (by decide) (by decide)

/-! ### Budgets of the BFS traversal (claim C8) -/

theorem bfsLoop_processed_le (h : Heap) (budget : Nat) (st : ExtractSt)
    (processed : Nat) : (bfsLoop h budget st processed).2 ≤ processed + budget := by
  induction budget generalizing st processed with
  | zero => simp [bfsLoop]
  | succ b ih =>
    obtain ⟨m0, q0, vis0⟩ := st
    rw [bfsLoop]
    cases q0 with
    | nil => simp
    | cons v rest =>
      simp only
      cases v with
      | ref cid =>
        cases hl : lookupInfo m0 cid with
        | none =>
          simp only [hl]
          exact le_trans (ih _ _) (by omega)
        | some d =>
          simp only [hl]
          split
          · exact le_trans (ih _ _) (by omega)
          · exact le_trans (ih _ _) (by omega)
      | vint nn => exact le_trans (ih _ _) (by omega)
      | vbool bb => exact le_trans (ih _ _) (by omega)
      | vnone => exact le_trans (ih _ _) (by omega)
      | vstr ss => exact le_trans (ih _ _) (by omega)

/-- The BFS dequeues at most `MAX_TRAVERSAL_ITEMS = 500` items. -/
theorem extract_phase1_processed_le (h : Heap) (sv : List (String × Val)) :
    (extract_phase1 h sv).2 ≤ 500 := by
  have := bfsLoop_processed_le h 500 (sv.foldl (seedOne h) ⟨[], [], []⟩) 0
  simpa [extract_phase1] using this

theorem childrenToCheck_seq_le {α β : Type} (f : Nat × α → β) (es : List α) :
    ((es.take 30).enum.map f).length ≤ 30 := by
  rw [List.length_map, List.enum_length, List.length_take]
  omega

theorem childrenToCheck_dict_le (ps : List (Val × Val)) :
    (childrenToCheck (Obj.pdict ps)).length ≤ 60 := by
  show (((ps.take 30).enum).foldr _ []).length ≤ 60
  have hgen : ∀ (l : List (Nat × (Val × Val))),
      (l.foldr (fun p acc =>
        (if is_visualizable_candidate p.2.1
          then [("_dict_KEY_" ++ toString p.1, p.2.1)] else []) ++
        (if is_visualizable_candidate p.2.2
          then [("_dict_VAL_" ++ toString p.1, p.2.2)] else []) ++ acc) []).length ≤
        2 * l.length := by
    intro l
    induction l with
    | nil => simp
    | cons p t ih =>
      simp only [List.foldr_cons, List.length_append, List.length_cons]
      have h1 : (if is_visualizable_candidate p.2.1
          then [("_dict_KEY_" ++ toString p.1, p.2.1)] else []).length ≤ 1 := by
        split <;> simp
      have h2 : (if is_visualizable_candidate p.2.2
          then [("_dict_VAL_" ++ toString p.1, p.2.2)] else []).length ≤ 1 := by
        split <;> simp
      omega
  have hlen : ((ps.take 30).enum).length ≤ 30 := by
    rw [List.enum_length, List.length_take]
    omega
  exact le_trans (hgen _) (by omega)

theorem bfsChild_m_len (h : Heap) (st : ExtractSt) (c : String × Val) :
    st.m.length ≤ (bfsChild h st c).m.length := by
  obtain ⟨nm, v⟩ := c
  unfold bfsChild
  split
  · exact le_refl _
  · cases v with
    | ref j =>
      cases hl : lookupInfo st.m j with
      | none =>
        simp only [hl]
        split <;> simp
      | some d =>
        simp only [hl]
        split <;> exact le_refl _
    | vint nn => exact le_refl _
    | vbool bb => exact le_refl _
    | vnone => exact le_refl _
    | vstr ss => exact le_refl _

theorem bfsLoop_m_len (h : Heap) (budget : Nat) (st : ExtractSt)
    (processed : Nat) : st.m.length ≤ (bfsLoop h budget st processed).1.length := by
  induction budget generalizing st processed with
  | zero => exact le_refl _
  | succ b ih =>
    obtain ⟨m0, q0, vis0⟩ := st
    rw [bfsLoop]
    cases q0 with
    | nil => exact le_refl _
    | cons v rest =>
      simp only
      cases v with
      | ref cid =>
        cases hl : lookupInfo m0 cid with
        | none =>
          simp only [hl]
          exact ih ⟨m0, rest, vis0⟩ (processed + 1)
        | some d =>
          simp only [hl]
          split
          · exact ih ⟨m0, rest, vis0⟩ (processed + 1)
          · refine le_trans ?_ (ih _ _)
            refine le_trans ?_ (foldl_preserve
              (P := fun st' : ExtractSt =>
                (updateInfo m0 cid (fun d0 => { d0 with visitedBfs := true })).length ≤
                  st'.m.length) _ _
              (fun a c _ hc => le_trans hc (bfsChild_m_len h a c)) (le_refl _))
            rw [length_updateInfo]
      | vint nn => exact ih ⟨m0, rest, vis0⟩ (processed + 1)
      | vbool bb => exact ih ⟨m0, rest, vis0⟩ (processed + 1)
      | vnone => exact ih ⟨m0, rest, vis0⟩ (processed + 1)
      | vstr ss => exact ih ⟨m0, rest, vis0⟩ (processed + 1)

theorem extract_visualizables_length (h : Heap) (fuel : Nat)
    (sv : List (String × Val)) :
    (extract_visualizables h fuel sv).length = (extract_phase1 h sv).1.length := by
  unfold extract_visualizables
  rw [length_sortBy, List.length_map]

/-- A scope binding `n` distinct names to `n` distinct empty lists
(`v0 = []; v1 = []; ...`): heap side. -/
def budgetHeap (n : Nat) : Heap := (List.range n).map (fun i => (i, Obj.plist []))

/-- The same scope: variable side.  Every name `vK` is a non-dunder direct
binding of a distinct identity. -/
def budgetScope (n : Nat) : List (String × Val) :=
  (List.range n).map (fun i => (⟨'v' :: Nat.toDigits 10 i⟩, Val.ref i))

theorem strStarts_vname (cs : List Char) :
    strStarts ⟨'v' :: cs⟩ "__" = false := by
  show List.isPrefixOf "__".data ('v' :: cs) = false
  have hd : "__".data = ['_', '_'] := rfl
  rw [hd]
  have hc : (('_' : Char) == 'v') = false := by decide
  simp [List.isPrefixOf, hc]

theorem seeded_keys (h : Heap) (n : Nat) :
    keysOf ((budgetScope n).foldl (seedOne h) ⟨[], [], []⟩).m = List.range n := by
  induction n with
  | zero => rfl
  | succ k ih =>
    rw [show budgetScope (k + 1) =
        budgetScope k ++ [(⟨'v' :: Nat.toDigits 10 k⟩, Val.ref k)] by
      unfold budgetScope
      rw [List.range_succ, List.map_append]
      rfl]
    rw [List.foldl_append]
    set st := (budgetScope k).foldl (seedOne h) (⟨[], [], []⟩ : ExtractSt) with hst
    have hkeys : keysOf st.m = List.range k := ih
    have hlknone : lookupInfo st.m k = none := by
      rw [lookupInfo_eq_none_iff, hkeys]
      simp
    simp only [List.foldl_cons, List.foldl_nil]
    unfold seedOne
    have hcond : (strStarts ⟨'v' :: Nat.toDigits 10 k⟩ "__" ||
        !is_visualizable_candidate (Val.ref k)) = false := by
      simp [strStarts_vname, is_visualizable_candidate]
    simp only [hcond, Bool.false_eq_true, if_false]
    simp only [hlknone]
    split <;>
    · rw [show List.range (k + 1) = List.range k ++ [k] from List.range_succ k]
      rw [← hkeys]
      exact keysOf_append st.m _

/-- A mapping with 16 pairs, every key and value an aggregate: it feeds the
traversal 32 children. -/
def wideDict : Obj :=
  .pdict ((List.range 16).map (fun i => (Val.ref (2 * i + 1), Val.ref (2 * i + 2))))

/-- C8 counterexample: (a) a scope with 501 directly bound aggregates
produces 501 graph nodes, exceeding the 500 budget (the budget caps only
BFS dequeues, not seeding); (b) a mapping with 16 candidate key/value pairs
contributes 32 traversed children, exceeding 30 (`MAX_COLLECTION_ITEMS_TRAVERSE`
caps pairs, and each pair contributes its key and its value). -/
theorem C8_budget_counterexample :
    500 < (extract_visualizables (budgetHeap 501) 1 (budgetScope 501)).length ∧
    30 < (childrenToCheck wideDict).length := by
  constructor
  · rw [extract_visualizables_length]
    have h1 : ((budgetScope 501).foldl (seedOne (budgetHeap 501))
        ⟨[], [], []⟩).m.length = 501 := by
      have hk := seeded_keys (budgetHeap 501) 501
      have := congrArg List.length hk
      rw [keysOf, List.length_map, List.length_range] at this
      exact this
    have h2 := bfsLoop_m_len (budgetHeap 501) 500
      ((budgetScope 501).foldl (seedOne (budgetHeap 501)) ⟨[], [], []⟩) 0
    unfold extract_phase1
    omega
  · decide

/-- C8 (amended): the BFS dequeues at most 500 items; each sequence, deque
or set contributes at most 30 traversed children, a mapping at most 30
pairs and hence at most 60 children (each pair contributes its key and its
value when they are candidates); object-kind values contribute one child
per field with no separate cap; the node count is not bounded by 500 when
more candidates are directly bound in scope. -/
theorem C8_amended_traversal_budgets :
    (∀ (h : Heap) (sv : List (String × Val)), (extract_phase1 h sv).2 ≤ 500) ∧
    (∀ es, (childrenToCheck (Obj.plist es)).length ≤ 30) ∧
    (∀ es, (childrenToCheck (Obj.ptuple es)).length ≤ 30) ∧
    (∀ es, (childrenToCheck (Obj.pdeque es)).length ≤ 30) ∧
    (∀ es, (childrenToCheck (Obj.pset es)).length ≤ 30) ∧
    (∀ ps, (childrenToCheck (Obj.pdict ps)).length ≤ 60) ∧
    (∀ c fs, childrenToCheck (Obj.objRec c fs) = fs) :=
  ⟨extract_phase1_processed_le,
   fun es => childrenToCheck_seq_le _ es,
   fun es => childrenToCheck_seq_le _ es,
   fun es => childrenToCheck_seq_le _ es,
   fun es => childrenToCheck_seq_le _ es,
   fun ps => childrenToCheck_dict_le ps,
   fun _ _ => rfl⟩

/-! ### Cyclic rendering (claim C2) -/

/-- A value tracked as another node's graph entry is emitted as a reference
marker, with no recursion into its contents (the marker branch of
`_safe_repr` fires before any dispatch on the value's shape). -/
theorem safe_repr_marker (h : Heap) (fuel : Nat) (i : ObjId) (maxLen : Nat)
    (ctx : Option ObjId) (tracked : List ObjId)
    (hmem : tracked.contains i = true) (hctx : (some i == ctx) = false) :
    safe_repr h (fuel + 1) (.ref i) maxLen ctx tracked = some (refMarker h i) := by
  unfold safe_repr
  simp [hmem, hctx]
  intro h'
  exact absurd (by simpa using hmem) h'

/-- The self-referential list `l = [l]`. -/
def cycHeap : Heap := [(0, .plist [.ref 0])]

def cycScope : List (String × Val) := [("l", .ref 0)]

/-- Rendering the self-loop under its own context id never terminates:
the `obj_id != context_id` test disables the marker for a direct
self-edge, so the preview recurses until the recursion guard fires,
whatever the available recursion headroom. -/
theorem safe_repr_self_loop :
    ∀ (fuel maxLen : Nat),
      safe_repr cycHeap fuel (.ref 0) maxLen (some 0) [0] = none := by
  intro fuel
  induction fuel with
  | zero => intro maxLen; rfl
  | succ f ih =>
    intro maxLen
    have ih' : safe_repr [(0, Obj.plist [Val.ref 0])] f (Val.ref 0) 25 (some 0) [0] =
        none := ih 25
    unfold safe_repr
    simp [cycHeap, heapLookup, List.find?, optionMapAll, ih']

set_option maxRecDepth 10000 in
/-- C2 counterexample: for `l = [l]` the only cyclic edge is a direct
self-edge; extraction renders it as a caught-`RecursionError` error entry —
not as a reference marker — and records no reference for it. -/
theorem C2_self_edge_counterexample :
    (extract_visualizables cycHeap 100 cycScope).map
      (fun nd => (nd.idN, nd.payload, nd.references)) =
      [(0, .arrayP
          [⟨0, "<Error: RecursionError(\x27maximum recursion depth exceeded\x27)>"⟩]
          "?", [])] := by
  decide

/-- The two-member cycle `a = [b]; b = [a]`. -/
def twoCycleHeap : Heap := [(0, .plist [.ref 1]), (1, .plist [.ref 0])]

def twoCycleScope : List (String × Val) := [("a", .ref 0), ("b", .ref 1)]

/-- C2 (amended): extraction of a cyclic structure terminates and
deduplicates — the BFS is visited-set- and budget-bounded and each identity
yields one node; a cyclic edge whose target is a *different* tracked node is
rendered as a reference marker carrying the target identity, with no
recursion into the target; but an edge from a container directly to itself
is not marker-protected (the `obj_id != context_id` test exempts the
rendering context), its rendering recurses until the recursion guard fires
regardless of the available headroom, and the per-node handler replaces the
payload with an error entry. -/
theorem C2_cycle_marker_and_self_edge :
    (∀ (h : Heap) (fuel : Nat) (i : ObjId) (maxLen : Nat) (ctx : Option ObjId)
        (tracked : List ObjId),
      tracked.contains i = true → (some i == ctx) = false →
        safe_repr h (fuel + 1) (.ref i) maxLen ctx tracked = some (refMarker h i)) ∧
    (∀ fuel maxLen : Nat,
      safe_repr cycHeap fuel (.ref 0) maxLen (some 0) [0] = none) ∧
    (extract_visualizables cycHeap 100 cycScope).length = 1 :=
  ⟨safe_repr_marker, safe_repr_self_loop, by decide⟩

/-- Witness for the amended C2 on the two-member cycle: the edge from `a`'s
node to `b` is rendered as the reference marker for `b`. -/
theorem C2_cycle_marker_and_self_edge_witness :
    safe_repr twoCycleHeap 100 (.ref 1) 150 (some 0) [0, 1] =
      some (refMarker twoCycleHeap 1) :=
  C2_cycle_marker_and_self_edge.1 twoCycleHeap 99 1 150 (some 0) [0, 1]
    (by decide) (by decide)

/-! ### The call event log (`user_call` / `user_return`)

Frames are modelled by the data the two hooks read from them:
`os.path.abspath(inspect.getfile(frame))`, the basename of the raw file
name, `frame.f_code.co_name` (already defaulted to `"<lambda>"` when
empty), the rendered argument list `_get_frame_args_and_values` would
produce, and `frame.f_lineno`. -/

structure FrameInfo where
  filenameAbs : String
  filenameBase : String
  funcName : String
  argsRepr : String
  lineNo : Nat
  deriving DecidableEq

/-- The per-process paths the classification compares against
(`self.debugger_script_abs_path`). -/
structure DbgEnv where
  scriptAbs : String
  deriving DecidableEq

/-- `self.debugger_internal_methods`. -/
def debugger_internal_methods : List String :=
  ["run_debugger", "user_line", "user_call", "user_return",
   "_safe_repr", "extract_visualizables", "_is_visualizable_candidate",
   "_get_frame_args_and_values", "_custom_input_handler", "_one_time_input_mock",
   "reset_internal_debugger_state",
   "run", "runcall", "main",
   "dispatch_line", "dispatch_call", "dispatch_return", "dispatch_exception",
   "stop_here", "break_here", "break_anywhere"]

/-- `filename_abs == self.debugger_script_abs_path and function_name in
self.debugger_internal_methods`. -/
def is_debugger_internal (env : DbgEnv) (f : FrameInfo) : Bool :=
  f.filenameAbs == env.scriptAbs && debugger_internal_methods.contains f.funcName

/-- `'bdb.py' in os.path.basename(filename_raw)`. -/
def is_bdb_internal (f : FrameInfo) : Bool := strContains f.filenameBase "bdb.py"

/-- One record of `self.call_event_log`. -/
inductive CallEvent where
  | call (callId : Nat) (parentCallId : Option Nat) (functionName : String)
      (argsRepr : String) (lineNoInFunction : Nat) (timestampStep : Nat)
  | ret (callId : Nat) (returnValueRepr : String) (timestampStep : Nat)
  deriving DecidableEq

def CallEvent.cid : CallEvent → Nat
  | .call c _ _ _ _ _ => c
  | .ret c _ _ => c

def CallEvent.isCall : CallEvent → Bool
  | .call _ _ _ _ _ _ => true
  | .ret _ _ _ => false

def CallEvent.isCallWithId (e : CallEvent) (rid : Nat) : Bool :=
  e.isCall && (e.cid == rid)

/-- The session state the two hooks read and write. -/
structure DbgState where
  callIdCounter : Nat
  callEventLog : List CallEvent
  activeCallIds : List Nat
  loggedCallIds : List Nat
  currentStep : Nat
  deriving DecidableEq

/-- State after `reset_internal_debugger_state`. -/
def initDbgState : DbgState := ⟨0, [], [], [], 0⟩

/-- `WebDebugger.user_call(frame, argument_list)` (lines 593-618).  Stacks
are Python lists used with `append`/`pop`, so the top is the last
element. -/
def user_call (env : DbgEnv) (st : DbgState) (f : FrameInfo) : DbgState :=
  let newId := st.callIdCounter + 1
  let parent := st.loggedCallIds.getLast?
  let active := st.activeCallIds ++ [newId]
  if is_debugger_internal env f || is_bdb_internal f then
    { st with callIdCounter := newId, activeCallIds := active }
  else
    let args := if f.funcName == "<module>" then "N/A (module scope)" else f.argsRepr
    { st with
      callIdCounter := newId
      activeCallIds := active
      callEventLog := st.callEventLog ++
        [.call newId parent f.funcName args f.lineNo st.currentStep]
      loggedCallIds := st.loggedCallIds ++ [newId] }

/-- `WebDebugger.user_return(frame, return_value)` (lines 620-648).
`retRepr` is the value `self._safe_repr(return_value, tracked_ids=None)`
renders. -/
def user_return (env : DbgEnv) (st : DbgState) (f : FrameInfo)
    (retRepr : String) : DbgState :=
  match st.activeCallIds.getLast? with
  | none => st
  | some returnedId =>
    let active := st.activeCallIds.dropLast
    let internal := is_debugger_internal env f || is_bdb_internal f
    let corresponding :=
      (st.callEventLog.reverse).find? (fun e => e.isCallWithId returnedId)
    let isTopLevelModuleReturn :=
      match corresponding with
      | some (.call _ parent fn _ _ _) => fn == "<module>" && parent == none
      | _ => false
    let log' :=
      if !internal && !isTopLevelModuleReturn &&
          (st.loggedCallIds.getLast? == some returnedId) then
        st.callEventLog ++ [.ret returnedId retRepr st.currentStep]
      else st.callEventLog
    let logged' :=
      if st.loggedCallIds.getLast? == some returnedId then
        st.loggedCallIds.dropLast
      else st.loggedCallIds
    { st with
      activeCallIds := active
      callEventLog := log'
      loggedCallIds := logged' }

/-- One engine notification: a call hook, a return hook, or a recorded
step (`user_line`) which advances the step counter the hooks stamp into
events. -/
inductive DbgAction where
  | call (f : FrameInfo)
  | ret (f : FrameInfo) (retRepr : String)
  | lineStep

def dbgStep (env : DbgEnv) (st : DbgState) : DbgAction → DbgState
  | .call f => user_call env st f
  | .ret f r => user_return env st f r
  | .lineStep => { st with currentStep := st.currentStep + 1 }

/-- The session state after a sequence of hook notifications within one
run. -/
def runActions (env : DbgEnv) (acts : List DbgAction) : DbgState :=
  acts.foldl (dbgStep env) initDbgState

/-! ### Log invariants (claims C3, C4) -/

/-- Every `return` record in `L` has a `call` record with the same id at an
earlier position. -/
def RetAfterCall (L : List CallEvent) : Prop :=
  ∀ j rid r t, L.get? j = some (.ret rid r t) →
    ∃ i p fn a l ts, i < j ∧ L.get? i = some (.call rid p fn a l ts)

/-- No `return` record refers to a whole-program module entry (a `call`
record named `<module>` with no parent). -/
def RetNotModule (L : List CallEvent) : Prop :=
  ∀ rid r t, CallEvent.ret rid r t ∈ L →
    ∀ p fn a l ts, CallEvent.call rid p fn a l ts ∈ L →
      fn ≠ "<module>" ∨ p ≠ none

/-- Invariants of the call machinery state within one run. -/
structure LogInv (st : DbgState) : Prop where
  counterBound : ∀ e ∈ st.callEventLog, e.cid ≤ st.callIdCounter
  loggedBound : ∀ c ∈ st.loggedCallIds, c ≤ st.callIdCounter
  callIdsNodup :
    ((st.callEventLog.filter CallEvent.isCall).map CallEvent.cid).Nodup
  loggedHasCall : ∀ c ∈ st.loggedCallIds, ∃ p fn a l t,
    CallEvent.call c p fn a l t ∈ st.callEventLog
  retAfterCall : RetAfterCall st.callEventLog
  retNotModule : RetNotModule st.callEventLog

theorem logInv_init : LogInv initDbgState := by
  constructor <;> simp [initDbgState, RetAfterCall, RetNotModule]

theorem get?_some_lt {α : Type} {l : List α} {n : Nat} {a : α}
    (h : l.get? n = some a) : n < l.length := by
  by_contra hn
  rw [List.get?_eq_none.2 (by omega)] at h
  exact Option.noConfusion h

theorem retAfterCall_append_call (L : List CallEvent) (c : Nat)
    (p : Option Nat) (fn a : String) (l t : Nat) (h : RetAfterCall L) :
    RetAfterCall (L ++ [CallEvent.call c p fn a l t]) := by
  intro j rid r ts hj
  have hjl : j < L.length := by
    by_cases hlt : j < L.length
    · exact hlt
    · exfalso
      rw [List.get?_append_right (by omega)] at hj
      by_cases hje : j - L.length = 0
      · rw [hje] at hj
        exact CallEvent.noConfusion (Option.some_inj.1 hj)
      · rw [List.get?_eq_none.2 (by simp; omega)] at hj
        exact Option.noConfusion hj
  rw [List.get?_append hjl] at hj
  obtain ⟨i, p', fn', a', l', ts', hij, hi⟩ := h j rid r ts hj
  exact ⟨i, p', fn', a', l', ts', hij,
    by rw [List.get?_append (lt_trans hij hjl)]; exact hi⟩

theorem retAfterCall_append_ret (L : List CallEvent) (rid : Nat) (r : String)
    (t : Nat) (h : RetAfterCall L)
    (hex : ∃ p fn a l ts, CallEvent.call rid p fn a l ts ∈ L) :
    RetAfterCall (L ++ [CallEvent.ret rid r t]) := by
  intro j rid' r' t' hj
  by_cases hjl : j < L.length
  · rw [List.get?_append hjl] at hj
    obtain ⟨i, p', fn', a', l', ts', hij, hi⟩ := h j rid' r' t' hj
    exact ⟨i, p', fn', a', l', ts', hij,
      by rw [List.get?_append (lt_trans hij hjl)]; exact hi⟩
  · have hje : j = L.length := by
      by_contra hne
      rw [List.get?_append_right (by omega)] at hj
      rw [List.get?_eq_none.2 (by simp; omega)] at hj
      exact Option.noConfusion hj
    subst hje
    rw [List.get?_append_right (le_refl _), Nat.sub_self] at hj
    have : rid' = rid := by
      have := Option.some_inj.1 hj
      cases this
      rfl
    subst this
    obtain ⟨p, fn, a, l, ts, hmem⟩ := hex
    obtain ⟨i, hi⟩ := List.mem_iff_get?.1 hmem
    exact ⟨i, p, fn, a, l, ts, get?_some_lt hi,
      by rw [List.get?_append (get?_some_lt hi)]; exact hi⟩

theorem retNotModule_append_call (L : List CallEvent) (c : Nat)
    (p : Option Nat) (fn a : String) (l t : Nat) (h : RetNotModule L)
    (hfresh : ∀ e ∈ L, e.cid ≤ c - 1) (hc : 0 < c) :
    RetNotModule (L ++ [CallEvent.call c p fn a l t]) := by
  intro rid r ts hret p' fn' a' l' ts' hcall
  rcases List.mem_append.1 hret with hret | hret
  · rcases List.mem_append.1 hcall with hcall | hcall
    · exact h rid r ts hret p' fn' a' l' ts' hcall
    · rw [List.mem_singleton] at hcall
      have hrid : rid = c := by
        cases hcall
        rfl
      have := hfresh _ hret
      simp only [CallEvent.cid] at this
      omega
  · rw [List.mem_singleton] at hret
    exact CallEvent.noConfusion hret

theorem retNotModule_append_ret (L : List CallEvent) (rid : Nat) (r : String)
    (t : Nat)
    (h : RetNotModule L)
    (hnod : ((L.filter CallEvent.isCall).map CallEvent.cid).Nodup)
    (hnm : ∀ p fn a l ts, CallEvent.call rid p fn a l ts ∈ L →
      fn ≠ "<module>" ∨ p ≠ none) :
    RetNotModule (L ++ [CallEvent.ret rid r t]) := by
  intro rid' r' t' hret p' fn' a' l' ts' hcall
  rcases List.mem_append.1 hcall with hcall | hcall
  · rcases List.mem_append.1 hret with hret | hret
    · exact h rid' r' t' hret p' fn' a' l' ts' hcall
    · rw [List.mem_singleton] at hret
      cases hret
      exact hnm p' fn' a' l' ts' hcall
  · rw [List.mem_singleton] at hcall
    exact CallEvent.noConfusion hcall

/-- With duplicate-free call ids, the `call` record found by scanning the
reversed log is the only `call` record with that id. -/
theorem call_unique {L : List CallEvent}
    (hnod : ((L.filter CallEvent.isCall).map CallEvent.cid).Nodup)
    {rid : Nat} {e : CallEvent}
    (hfind : (L.reverse).find? (fun e0 => e0.isCallWithId rid) = some e)
    {p : Option Nat} {fn a : String} {l ts : Nat}
    (hmem : CallEvent.call rid p fn a l ts ∈ L) :
    e = CallEvent.call rid p fn a l ts := by
  have hpe0 := List.find?_some hfind
  have hpe : e.isCallWithId rid = true := hpe0
  have heme : e ∈ L := List.mem_reverse.1 (List.mem_of_find?_eq_some hfind)
  have he1 : e ∈ L.filter CallEvent.isCall := by
    rw [List.mem_filter]
    exact ⟨heme, by
      simp only [CallEvent.isCallWithId, Bool.and_eq_true] at hpe
      exact hpe.1⟩
  have he2 : CallEvent.call rid p fn a l ts ∈ L.filter CallEvent.isCall := by
    rw [List.mem_filter]
    exact ⟨hmem, rfl⟩
  have hcid : CallEvent.cid e = CallEvent.cid (CallEvent.call rid p fn a l ts) := by
    simp only [CallEvent.isCallWithId, Bool.and_eq_true, beq_iff_eq] at hpe
    exact hpe.2
  exact List.inj_on_of_nodup_map hnod he1 he2 hcid

theorem user_return_counter (env : DbgEnv) (st : DbgState) (f : FrameInfo)
    (r : String) : (user_return env st f r).callIdCounter = st.callIdCounter := by
  unfold user_return
  cases hA : st.activeCallIds.getLast? with
  | none => rfl
  | some rid => rfl

theorem user_return_logged_sublist (env : DbgEnv) (st : DbgState)
    (f : FrameInfo) (r : String) :
    (user_return env st f r).loggedCallIds.Sublist st.loggedCallIds := by
  unfold user_return
  cases hA : st.activeCallIds.getLast? with
  | none => exact List.Sublist.refl _
  | some rid =>
    dsimp only
    split
    · exact List.dropLast_sublist _
    · exact List.Sublist.refl _

/-- Either `user_return` leaves the log unchanged, or it appends exactly
one `return` record whose id is the top of the logged stack and whose
corresponding `call` record is not the whole-program module entry. -/
theorem user_return_log_cases (env : DbgEnv) (st : DbgState) (f : FrameInfo)
    (r : String) :
    (user_return env st f r).callEventLog = st.callEventLog ∨
    ∃ rid,
      st.loggedCallIds.getLast? = some rid ∧
      ((st.callEventLog.reverse).find? (fun e => e.isCallWithId rid)).rec false
        (fun e =>
          match e with
          | .call _ parent fn _ _ _ => fn == "<module>" && parent == none
          | _ => false) = false ∧
      (user_return env st f r).callEventLog =
        st.callEventLog ++ [.ret rid r st.currentStep] := by
  unfold user_return
  cases hA : st.activeCallIds.getLast? with
  | none => exact Or.inl rfl
  | some rid =>
    dsimp only
    split
    · rename_i hcond
      simp only [Bool.and_eq_true, Bool.not_eq_true'] at hcond
      obtain ⟨⟨hint, htop⟩, hlast⟩ := hcond
      refine Or.inr ⟨rid, by simpa using hlast, ?_, rfl⟩
      cases hfind : (st.callEventLog.reverse).find? (fun e => e.isCallWithId rid) with
      | none => rfl
      | some e =>
        rw [hfind] at htop
        cases e with
        | call c p fn a l t => exact htop
        | ret c rr t => rfl
    · exact Or.inl rfl

theorem mem_of_getLast?_eq {α : Type} {l : List α} {a : α}
    (h : l.getLast? = some a) : a ∈ l := by
  induction l with
  | nil => simp at h
  | cons b t ih =>
    cases t with
    | nil =>
      simp only [List.getLast?_singleton, Option.some_inj] at h
      subst h
      exact List.mem_singleton.2 rfl
    | cons c t' =>
      rw [List.getLast?_cons_cons] at h
      exact List.mem_cons_of_mem _ (ih h)

theorem user_call_inv (env : DbgEnv) (st : DbgState) (f : FrameInfo)
    (hI : LogInv st) : LogInv (user_call env st f) := by
  unfold user_call
  split
  · exact
      { counterBound := fun e he => le_trans (hI.counterBound e he) (Nat.le_succ _)
        loggedBound := fun c hc => le_trans (hI.loggedBound c hc) (Nat.le_succ _)
        callIdsNodup := hI.callIdsNodup
        loggedHasCall := hI.loggedHasCall
        retAfterCall := hI.retAfterCall
        retNotModule := hI.retNotModule }
  · refine ⟨?_, ?_, ?_, ?_, ?_, ?_⟩
    · intro e he
      rcases List.mem_append.1 he with he | he
      · exact le_trans (hI.counterBound e he) (Nat.le_succ _)
      · rw [List.mem_singleton] at he
        subst he
        exact le_refl _
    · intro c hc
      rcases List.mem_append.1 hc with hc | hc
      · exact le_trans (hI.loggedBound c hc) (Nat.le_succ _)
      · rw [List.mem_singleton] at hc
        subst hc
        exact le_refl _
    · rw [List.filter_append, List.map_append]
      have hsing : List.filter CallEvent.isCall
          [CallEvent.call (st.callIdCounter + 1) st.loggedCallIds.getLast?
            f.funcName
            (if f.funcName == "<module>" then "N/A (module scope)" else f.argsRepr)
            f.lineNo st.currentStep] =
          [CallEvent.call (st.callIdCounter + 1) st.loggedCallIds.getLast?
            f.funcName
            (if f.funcName == "<module>" then "N/A (module scope)" else f.argsRepr)
            f.lineNo st.currentStep] := rfl
      rw [hsing]
      refine hI.callIdsNodup.append (List.nodup_singleton _) ?_
      intro x hx hx2
      rw [List.map_singleton, List.mem_singleton] at hx2
      obtain ⟨e, he, hce⟩ := List.mem_map.1 hx
      have hb := hI.counterBound e (List.mem_filter.1 he).1
      simp only [CallEvent.cid] at hx2
      omega
    · intro c hc
      rcases List.mem_append.1 hc with hc | hc
      · obtain ⟨p, fn, a, l, t, hm⟩ := hI.loggedHasCall c hc
        exact ⟨p, fn, a, l, t, List.mem_append_left _ hm⟩
      · rw [List.mem_singleton] at hc
        subst hc
        exact ⟨st.loggedCallIds.getLast?, f.funcName, _, f.lineNo, st.currentStep,
          List.mem_append_right _ (List.mem_singleton.2 rfl)⟩
    · exact retAfterCall_append_call _ _ _ _ _ _ _ hI.retAfterCall
    · refine retNotModule_append_call _ _ _ _ _ _ _ hI.retNotModule ?_ (by omega)
      intro e he
      have := hI.counterBound e he
      omega

theorem user_return_inv (env : DbgEnv) (st : DbgState) (f : FrameInfo)
    (r : String) (hI : LogInv st) : LogInv (user_return env st f r) := by
  have hcnt := user_return_counter env st f r
  have hsub := user_return_logged_sublist env st f r
  rcases user_return_log_cases env st f r with hlog | ⟨rid, hlast, htop, hlog⟩
  · exact
      { counterBound := fun e he => by
          rw [hcnt]
          exact hI.counterBound e (hlog ▸ he)
        loggedBound := fun c hc => by
          rw [hcnt]
          exact hI.loggedBound c (hsub.subset hc)
        callIdsNodup := by rw [hlog]; exact hI.callIdsNodup
        loggedHasCall := fun c hc => by
          rw [hlog]
          exact hI.loggedHasCall c (hsub.subset hc)
        retAfterCall := by rw [hlog]; exact hI.retAfterCall
        retNotModule := by rw [hlog]; exact hI.retNotModule }
  · have hridlog : rid ∈ st.loggedCallIds := mem_of_getLast?_eq hlast
    have hx := hI.loggedHasCall rid hridlog
    have hnm : ∀ p fn a l ts, CallEvent.call rid p fn a l ts ∈ st.callEventLog →
        fn ≠ "<module>" ∨ p ≠ none := by
      intro p fn a l ts hmem
      cases hfind : (st.callEventLog.reverse).find?
          (fun e => e.isCallWithId rid) with
      | none =>
        exfalso
        have := List.find?_eq_none.1 hfind (CallEvent.call rid p fn a l ts)
          (List.mem_reverse.2 hmem)
        simp [CallEvent.isCallWithId, CallEvent.isCall, CallEvent.cid] at this
      | some e =>
        have he := call_unique hI.callIdsNodup hfind hmem
        subst he
        rw [hfind] at htop
        simp only [Bool.and_eq_true] at htop
        rcases Bool.and_eq_false_iff.1 htop with hf | hf
        · exact Or.inl (by simpa using (beq_eq_false_iff_ne.1 hf))
        · exact Or.inr (by simpa using (beq_eq_false_iff_ne.1 hf))
    exact
      { counterBound := fun e he => by
          rw [hcnt]
          rw [hlog] at he
          rcases List.mem_append.1 he with he | he
          · exact hI.counterBound e he
          · rw [List.mem_singleton] at he
            subst he
            exact hI.loggedBound rid hridlog
        loggedBound := fun c hc => by
          rw [hcnt]
          exact hI.loggedBound c (hsub.subset hc)
        callIdsNodup := by
          rw [hlog, List.filter_append]
          have : List.filter CallEvent.isCall
              [CallEvent.ret rid r st.currentStep] = [] := rfl
          rw [this, List.append_nil]
          exact hI.callIdsNodup
        loggedHasCall := fun c hc => by
          rw [hlog]
          obtain ⟨p, fn, a, l, t, hm⟩ := hI.loggedHasCall c (hsub.subset hc)
          exact ⟨p, fn, a, l, t, List.mem_append_left _ hm⟩
        retAfterCall := by
          rw [hlog]
          exact retAfterCall_append_ret _ _ _ _ hI.retAfterCall hx
        retNotModule := by
          rw [hlog]
          exact retNotModule_append_ret _ _ _ _ hI.retNotModule
            hI.callIdsNodup hnm }

theorem runActions_inv (env : DbgEnv) (acts : List DbgAction) :
    LogInv (runActions env acts) := by
  refine foldl_preserve _ _ (fun a b _ ha => ?_) logInv_init
  cases b with
  | call f => exact user_call_inv env a f ha
  | ret f r => exact user_return_inv env a f r ha
  | lineStep =>
    exact
      { counterBound := ha.counterBound
        loggedBound := ha.loggedBound
        callIdsNodup := ha.callIdsNodup
        loggedHasCall := ha.loggedHasCall
        retAfterCall := ha.retAfterCall
        retNotModule := ha.retNotModule }

/-- C3: every `return` record in the call event log refers to a `call`
record appended strictly earlier in the same log. -/
theorem C3_return_has_earlier_call (env : DbgEnv) (acts : List DbgAction)
    (j rid : Nat) (r : String) (ts : Nat)
    (hj : (runActions env acts).callEventLog.get? j =
      some (CallEvent.ret rid r ts)) :
    ∃ i p fn a l t, i < j ∧
      (runActions env acts).callEventLog.get? i =
        some (CallEvent.call rid p fn a l t) := by
  obtain ⟨i, p, fn, a, l, t, hlt, hi⟩ :=
    (runActions_inv env acts).retAfterCall j rid r ts hj
  exact ⟨i, p, fn, a, l, t, hlt, hi⟩

/-- Frames used by concrete call-log runs. -/
def sampleEnv : DbgEnv := ⟨"/app/a.py"⟩

/-- The module-level frame of the compiled user submission. -/
def moduleFrame : FrameInfo := ⟨"<string>", "<string>", "<module>", "", 1⟩

/-- A user-code function frame. -/
def userFrame : FrameInfo := ⟨"<string>", "<string>", "f", "x=1", 3⟩

theorem C3_return_has_earlier_call_witness :
    ∃ i p fn a l t, i < 2 ∧
      (runActions sampleEnv
        [.call moduleFrame, .call userFrame, .ret userFrame "None"]).callEventLog.get? i =
        some (CallEvent.call 2 p fn a l t) :=
  C3_return_has_earlier_call sampleEnv
    [.call moduleFrame, .call userFrame, .ret userFrame "None"]
    2 2 "None" 0 (by decide)

/-- C10: invoking the return hook with an empty active call-id stack is a
no-op — the full session state is unchanged, so no event is appended, no
stack is modified and the counter keeps its value. -/
theorem C10_return_on_empty_active_stack_noop (env : DbgEnv) (st : DbgState)
    (f : FrameInfo) (r : String) (h : st.activeCallIds = []) :
    user_return env st f r = st := by
  unfold user_return
  rw [h]
  rfl

theorem C10_return_on_empty_active_stack_noop_witness :
    user_return sampleEnv ⟨7, [], [], [], 4⟩ userFrame "None" =
      (⟨7, [], [], [], 4⟩ : DbgState) :=
  C10_return_on_empty_active_stack_noop sampleEnv ⟨7, [], [], [], 4⟩
    userFrame "None" rfl

/-- C4 counterexample: the topmost module-level invocation *is* surfaced in
the call event log as a `call` record (only its `return` record is
suppressed): a run consisting of the module entry alone leaves a
`<module>` call record in the log. -/
theorem C4_module_call_is_logged_counterexample :
    (runActions sampleEnv [.call moduleFrame]).callEventLog =
      [CallEvent.call 1 none "<module>" "N/A (module scope)" 1 0] := by
  decide

/-- C4 (amended): the `return` record of the topmost module-level
invocation is excluded from the call event log — no logged `return`'s call
id refers to a `call` record named `<module>` with no parent — but the
`call` record of the module invocation is appended (with placeholder
arguments) like any other non-internal call. -/
theorem C4_amended_module_return_suppressed (env : DbgEnv)
    (acts : List DbgAction) :
    (∀ rid r t, CallEvent.ret rid r t ∈ (runActions env acts).callEventLog →
      ∀ p fn a l ts,
        CallEvent.call rid p fn a l ts ∈ (runActions env acts).callEventLog →
          fn ≠ "<module>" ∨ p ≠ none) ∧
    (∀ st f, (is_debugger_internal env f || is_bdb_internal f) = false →
      f.funcName = "<module>" →
      (user_call env st f).callEventLog = st.callEventLog ++
        [CallEvent.call (st.callIdCounter + 1) st.loggedCallIds.getLast?
          "<module>" "N/A (module scope)" f.lineNo st.currentStep]) := by
  constructor
  · exact (runActions_inv env acts).retNotModule
  · intro st f hint hfn
    unfold user_call
    rw [hint]
    simp only [Bool.false_eq_true, if_false]
    rw [hfn]
    rfl

theorem C4_amended_module_return_suppressed_witness :
    (user_call sampleEnv initDbgState moduleFrame).callEventLog =
      [] ++ [CallEvent.call 1 none "<module>" "N/A (module scope)" 1 0] :=
  (C4_amended_module_return_suppressed sampleEnv []).2 initDbgState
    moduleFrame (by decide) rfl

/-! ### Console input interception (`_one_time_input_mock`, claim C5) -/

/-- The session fields the input interceptor reads and writes. -/
structure InputState where
  allProvidedInputs : List String
  nextInputIndex : Nat
  providedInputValueForNextCall : Option String
  stdoutBuffer : String
  deriving DecidableEq

/-- A console read either produces a value or raises
`WaitingForInputException(prompt)`. -/
inductive InputOutcome where
  | value (v : String)
  | waitingForInput (prompt : String)
  deriving DecidableEq

/-- `WebDebugger._custom_input_handler` (lines 152-155): echo the prompt to
the captured stream, then raise the blocking-input signal. -/
def custom_input_handler (prompt : String) (st : InputState) :
    InputOutcome × InputState :=
  (.waitingForInput prompt, { st with stdoutBuffer := st.stdoutBuffer ++ prompt })

/-- `WebDebugger._one_time_input_mock` (lines 157-176). -/
def one_time_input_mock (prompt : String) (st : InputState) :
    InputOutcome × InputState :=
  if h : st.nextInputIndex < st.allProvidedInputs.length then
    let v := st.allProvidedInputs.get ⟨st.nextInputIndex, h⟩
    (.value v,
      { st with
        stdoutBuffer := st.stdoutBuffer ++ prompt ++ v ++ "\n"
        nextInputIndex := st.nextInputIndex + 1 })
  else
    match st.providedInputValueForNextCall with
    | some v =>
      (.value v,
        { st with
          providedInputValueForNextCall := none
          stdoutBuffer := st.stdoutBuffer ++ prompt ++ v ++ "\n"
          allProvidedInputs := st.allProvidedInputs ++ [v]
          nextInputIndex := (st.allProvidedInputs ++ [v]).length })
    | none => custom_input_handler prompt st

/-! ### `run_debugger` (claims C5, C6, C7)

The submitted program's behaviour is external input to `run_debugger`: the
model takes the sequence of user-line captures the hooks performed and the
way `self.runcall(...)` ended.  A step record keeps the fields the
orchestration logic reads or writes (`step`, `line_no`, `code`, `stdout`,
`error`, `input_request`); the remaining payload (locals, globals,
visualizables, stack_info) is filled from frame data the run logic never
inspects, and is omitted from the record. -/

structure Step where
  step : Nat
  lineNo : Int
  code : String
  stdoutVal : String
  errorField : Option String
  inputRequest : Option String
  deriving DecidableEq

/-- Data one successful `user_line` capture takes from the frame. -/
structure LineData where
  lineNo : Int
  code : String
  stdoutVal : String
  deriving DecidableEq

/-- Data of one tracing-internal failure inside `user_line`. -/
structure IErrData where
  errText : String
  lineNo : Int
  stdoutVal : String
  deriving DecidableEq

structure RunState where
  executionTrace : List Step
  currentStep : Nat
  quitting : Bool
  deriving DecidableEq

/-- The successful tail of `user_line` (lines 711-718): append a snapshot
at index `current_step`, then increment. -/
def user_line_record (st : RunState) (d : LineData) : RunState :=
  { st with
    executionTrace := st.executionTrace ++
      [⟨st.currentStep, d.lineNo, d.code, d.stdoutVal, none, none⟩]
    currentStep := st.currentStep + 1 }

/-- The exception tail of `user_line` (lines 721-737): append an error step
unless the previous step already carries the identical error text, then
increment and `set_quit`. -/
def user_line_error (st : RunState) (errText : String) (lineNo : Int)
    (stdoutVal : String) : RunState :=
  let entry : Step :=
    ⟨st.currentStep, lineNo, "<Debugger Error in user_line>", stdoutVal,
      some errText, none⟩
  let trace' :=
    match st.executionTrace.getLast? with
    | none => st.executionTrace ++ [entry]
    | some s =>
      if s.errorField ≠ some errText then st.executionTrace ++ [entry]
      else st.executionTrace
  { st with
    executionTrace := trace'
    currentStep := st.currentStep + 1
    quitting := true }

/-- The trace state after the hook notifications of one `runcall`: the
successful captures in order, then at most one internal failure (after
which `set_quit` stops all further dispatch). -/
def runTraceEvents (evs : List LineData) (ierr : Option IErrData) : RunState :=
  let st := evs.foldl user_line_record ⟨[], 0, false⟩
  match ierr with
  | none => st
  | some e => user_line_error st e.errText e.lineNo e.stdoutVal

/-- How `self.runcall(exec, ...)` ended, as observed by the
`try`/`except` of `run_debugger`.  A syntax failure happens at `compile`,
before any hook ran; a pending `WaitingForInputException` cannot follow an
internal failure because `set_quit` stops dispatch. -/
inductive ExecBehavior where
  | completed (evs : List LineData) (ierr : Option IErrData)
  | waiting (evs : List LineData) (prompt : String)
  | syntaxFail (msg : String) (lineNo : Int) (codeText : String)
  | runtimeFail (evs : List LineData) (ierr : Option IErrData) (msg : String)
      (lineNo : Int)
  deriving DecidableEq

/-- In-place amendment of the last captured step (`self.execution_trace[-1]`). -/
def updateLast (f : Step → Step) : List Step → List Step
  | [] => []
  | [a] => [f a]
  | a :: b :: rest => a :: updateLast f (b :: rest)

/-- The terminal error handling of the `finally` block (lines 824-844):
append the terminal error step unless the last step already carries the
identical error text, in which case only its stdout is refreshed. -/
def appendOrMergeError (trace : List Step) (entry : Step)
    (finalStdout : String) : List Step :=
  match trace.getLast? with
  | none => trace ++ [entry]
  | some s =>
    if s.errorField ≠ entry.errorField then trace ++ [entry]
    else updateLast (fun s0 => { s0 with stdoutVal := finalStdout }) trace

/-- The final trace and finished flag produced by the `except`/`finally`
logic of `run_debugger` (lines 757-862). -/
def finalizeRun (beh : ExecBehavior) (finalStdout : String) :
    List Step × Bool :=
  match beh with
  | .completed evs ierr =>
    let st := runTraceEvents evs ierr
    if st.executionTrace = [] then
      (st.executionTrace ++
        [⟨st.currentStep, -1, "Finished (No user lines traced)", finalStdout,
          none, none⟩], true)
    else
      (updateLast (fun s => { s with stdoutVal := finalStdout })
        st.executionTrace, true)
  | .waiting evs prompt =>
    let st := runTraceEvents evs none
    (updateLast
      (fun s => { s with inputRequest := some prompt, stdoutVal := finalStdout })
      st.executionTrace, false)
  | .syntaxFail msg lineNo codeText =>
    (appendOrMergeError []
      ⟨0, lineNo, codeText, finalStdout, some msg, none⟩ finalStdout, true)
  | .runtimeFail evs ierr msg lineNo =>
    let st := runTraceEvents evs ierr
    let lastCode :=
      ((st.executionTrace.getLast?).map Step.code).getD "<Error during execution>"
    let finalErrorLine :=
      if lineNo ≠ -1 then lineNo
      else ((st.executionTrace.getLast?).map Step.lineNo).getD (-1)
    (appendOrMergeError st.executionTrace
      ⟨st.currentStep, finalErrorLine, lastCode, finalStdout, some msg, none⟩
      finalStdout, true)

/-- Where `sys.stdout` currently points. -/
inductive StdoutTarget where
  | hostStdout
  | debuggerBuffer
  deriving DecidableEq

/-- Where `builtins.input` currently points. -/
inductive InputTarget where
  | hostInput
  | inputMock
  deriving DecidableEq

/-- The globally redirected streams. -/
structure World where
  sysStdout : StdoutTarget
  builtinsInput : InputTarget
  deriving DecidableEq

structure RunResult where
  trace : List Step
  finished : Bool
  world : World
  deriving DecidableEq

/-- `WebDebugger.run_debugger` (lines 741-862): reset, redirect the
streams (lines 747-751), run, and in `finally` restore `sys.stdout`
unconditionally and `builtins.input` when a saved original exists
(lines 802-804), finalize the trace and set `finished` unless the run
suspended on input (line 806). -/
def run_debugger (beh : ExecBehavior) (w : World) (finalStdout : String) :
    RunResult :=
  let originalStdout := w.sysStdout
  let originalBuiltinsInput : Option InputTarget := some w.builtinsInput
  let wDuring : World := ⟨.debuggerBuffer, .inputMock⟩
  let tf := finalizeRun beh finalStdout
  let wAfterStdout : World := { wDuring with sysStdout := originalStdout }
  let wFinal : World :=
    match originalBuiltinsInput with
    | some f => { wAfterStdout with builtinsInput := f }
    | none => wAfterStdout
  { trace := tf.1, finished := tf.2, world := wFinal }

theorem updateLast_map_step (f : Step → Step) (hf : ∀ s, (f s).step = s.step) :
    ∀ l : List Step, (updateLast f l).map Step.step = l.map Step.step := by
  intro l
  induction l with
  | nil => rfl
  | cons a t ih =>
    cases t with
    | nil => simp [updateLast, hf]
    | cons b t' =>
      simp only [updateLast, List.map_cons]
      rw [show (updateLast f (b :: t')).map Step.step = (b :: t').map Step.step
        from ih]
      rfl

theorem updateLast_length (f : Step → Step) :
    ∀ l : List Step, (updateLast f l).length = l.length := by
  intro l
  induction l with
  | nil => rfl
  | cons a t ih =>
    cases t with
    | nil => rfl
    | cons b t' =>
      simp only [updateLast, List.length_cons]
      rw [show (updateLast f (b :: t')).length = (b :: t').length from ih]
      rfl

theorem updateLast_getLast? (f : Step → Step) :
    ∀ l : List Step, (updateLast f l).getLast? = (l.getLast?).map f := by
  intro l
  induction l with
  | nil => rfl
  | cons a t ih =>
    cases t with
    | nil => rfl
    | cons b t' =>
      cases ht : updateLast f (b :: t') with
      | nil =>
        exfalso
        have := updateLast_length f (b :: t')
        rw [ht] at this
        simp at this
      | cons c u =>
        rw [show updateLast f (a :: b :: t') = a :: updateLast f (b :: t') from rfl]
        rw [ht, List.getLast?_cons_cons, ← ht, ih, List.getLast?_cons_cons]

theorem getLast?_cons_ne_none {α : Type} (x : α) (xs : List α) :
    (x :: xs).getLast? ≠ none := by
  induction xs generalizing x with
  | nil => simp [List.getLast?]
  | cons y ys ih =>
    rw [List.getLast?_cons_cons]
    exact ih y

/-- Invariant of the trace built by successful `user_line` captures. -/
def TraceOk (st : RunState) : Prop :=
  st.executionTrace.map Step.step = List.range st.currentStep ∧
  st.executionTrace.length = st.currentStep ∧
  ∀ s ∈ st.executionTrace, s.errorField = none

theorem user_line_record_traceOk (st : RunState) (d : LineData)
    (h : TraceOk st) : TraceOk (user_line_record st d) := by
  obtain ⟨hmap, hlen, herr⟩ := h
  refine ⟨?_, ?_, ?_⟩
  · show (st.executionTrace ++ [_]).map Step.step = List.range (st.currentStep + 1)
    rw [List.map_append, hmap, List.range_succ]
    rfl
  · show (st.executionTrace ++ [_]).length = st.currentStep + 1
    rw [List.length_append, hlen]
    rfl
  · intro s hs
    rcases List.mem_append.1 hs with hs | hs
    · exact herr s hs
    · rw [List.mem_singleton] at hs
      subst hs
      rfl

theorem foldTrace_traceOk (evs : List LineData) :
    TraceOk (evs.foldl user_line_record ⟨[], 0, false⟩) := by
  refine foldl_preserve _ _ (fun a b _ hb => user_line_record_traceOk a b hb) ?_
  exact ⟨rfl, rfl, by simp⟩

theorem runTraceEvents_indices (evs : List LineData) (ierr : Option IErrData) :
    (runTraceEvents evs ierr).executionTrace.map Step.step =
      List.range (runTraceEvents evs ierr).currentStep ∧
    (runTraceEvents evs ierr).executionTrace.length =
      (runTraceEvents evs ierr).currentStep := by
  obtain ⟨hmap, hlen, herr⟩ := foldTrace_traceOk evs
  unfold runTraceEvents
  cases ierr with
  | none => exact ⟨hmap, hlen⟩
  | some e =>
    simp only
    unfold user_line_error
    set st := evs.foldl user_line_record (⟨[], 0, false⟩ : RunState) with hst
    cases hlast : st.executionTrace.getLast? with
    | none =>
      have htr : st.executionTrace = [] := by
        cases htr : st.executionTrace with
        | nil => rfl
        | cons x xs =>
          rw [htr] at hlast
          exact absurd hlast (getLast?_cons_ne_none x xs)
      have hcur : st.currentStep = 0 := by
        rw [htr] at hlen
        simpa using hlen.symm
      simp only [hlast]
      refine ⟨?_, ?_⟩
      · show (st.executionTrace ++ [_]).map Step.step = List.range (st.currentStep + 1)
        rw [htr, hcur]
        rfl
      · show (st.executionTrace ++ [_]).length = st.currentStep + 1
        rw [htr, hcur]
        rfl
    | some s =>
      have hserr : s.errorField = none :=
        herr s (mem_of_getLast?_eq hlast)
      simp only [hlast]
      rw [if_pos (by rw [hserr]; exact fun hc => Option.noConfusion hc)]
      refine ⟨?_, ?_⟩
      · show (st.executionTrace ++ [_]).map Step.step = List.range (st.currentStep + 1)
        rw [List.map_append, hmap, List.range_succ]
        rfl
      · show (st.executionTrace ++ [_]).length = st.currentStep + 1
        rw [List.length_append, hlen]
        rfl

theorem foldTrace_currentStep (evs : List LineData) :
    ∀ st : RunState, (evs.foldl user_line_record st).currentStep =
      st.currentStep + evs.length := by
  induction evs with
  | nil => intro st; simp
  | cons d t ih =>
    intro st
    rw [List.foldl_cons, ih]
    show st.currentStep + 1 + t.length = st.currentStep + (t.length + 1)
    omega

theorem finalizeRun_indices (beh : ExecBehavior) (fs : String) :
    (finalizeRun beh fs).1.map Step.step =
      List.range (finalizeRun beh fs).1.length := by
  cases beh with
  | completed evs ierr =>
    obtain ⟨hmap, hlen⟩ := runTraceEvents_indices evs ierr
    unfold finalizeRun
    dsimp only
    split
    · rename_i htr
      have hcur : (runTraceEvents evs ierr).currentStep = 0 := by
        rw [htr] at hlen
        simpa using hlen.symm
      rw [htr, hcur]
      rfl
    · dsimp only
      rw [updateLast_map_step (fun s => { s with stdoutVal := fs })
        (fun s => rfl), updateLast_length, hmap, hlen]
  | waiting evs prompt =>
    obtain ⟨hmap, hlen⟩ := runTraceEvents_indices evs none
    unfold finalizeRun
    dsimp only
    rw [updateLast_map_step
      (fun s => { s with inputRequest := some prompt, stdoutVal := fs })
      (fun s => rfl), updateLast_length, hmap, hlen]
  | syntaxFail msg lineNo codeText =>
    rfl
  | runtimeFail evs ierr msg lineNo =>
    obtain ⟨hmap, hlen⟩ := runTraceEvents_indices evs ierr
    unfold finalizeRun
    dsimp only
    unfold appendOrMergeError
    cases hlast : (runTraceEvents evs ierr).executionTrace.getLast? with
    | none =>
      have htr : (runTraceEvents evs ierr).executionTrace = [] := by
        cases htr : (runTraceEvents evs ierr).executionTrace with
        | nil => rfl
        | cons x xs =>
          rw [htr] at hlast
          exact absurd hlast (getLast?_cons_ne_none x xs)
      have hcur : (runTraceEvents evs ierr).currentStep = 0 := by
        rw [htr] at hlen
        simpa using hlen.symm
      dsimp only
      rw [htr, hcur]
      rfl
    | some s =>
      have h1 := updateLast_map_step (fun s0 => { s0 with stdoutVal := fs })
        (fun s0 => rfl) (runTraceEvents evs ierr).executionTrace
      have h2 := updateLast_length (fun s0 : Step => { s0 with stdoutVal := fs })
        (runTraceEvents evs ierr).executionTrace
      dsimp only
      split
      · rw [List.map_append, List.length_append, hmap, hlen]
        simp [List.range_succ]
      · rw [h1, h2, hmap, hlen]

/-- C7: the step indices of the recorded trace are `0, 1, 2, ...` —
strictly increasing and contiguous from 0 — on every exit path: normal
completion (with the merged terminal record), suspension on input, syntax
failure and runtime failure, with or without a trailing tracing-internal
error step. -/
theorem C7_step_indices_contiguous (beh : ExecBehavior) (w : World)
    (fs : String) :
    ((run_debugger beh w fs).trace.map Step.step) =
      List.range ((run_debugger beh w fs).trace.length) :=
  finalizeRun_indices beh fs

/-- C6: on every exit path — completion, suspension on input, syntax
failure, runtime failure — the captured stdout stream and the intercepted
console-input function are restored to their pre-run values. -/
theorem C6_streams_restored (beh : ExecBehavior) (w : World) (fs : String) :
    (run_debugger beh w fs).world = w :=
  rfl

/-- C5: a console read first consumes an unconsumed recorded input (history
untouched, index advanced); otherwise a staged injected value is consumed
(cleared, appended to history) and returned; otherwise the blocking-input
signal is raised, and at the run level a suspended run is left not
finished with the prompt recorded against the last captured step. -/
theorem C5_console_read_protocol :
    (∀ (prompt : String) (st : InputState)
        (h : st.nextInputIndex < st.allProvidedInputs.length),
      (one_time_input_mock prompt st).1 =
        .value (st.allProvidedInputs.get ⟨st.nextInputIndex, h⟩) ∧
      (one_time_input_mock prompt st).2.nextInputIndex = st.nextInputIndex + 1 ∧
      (one_time_input_mock prompt st).2.allProvidedInputs =
        st.allProvidedInputs) ∧
    (∀ (prompt : String) (st : InputState) (v : String),
      ¬st.nextInputIndex < st.allProvidedInputs.length →
      st.providedInputValueForNextCall = some v →
      (one_time_input_mock prompt st).1 = .value v ∧
      (one_time_input_mock prompt st).2.allProvidedInputs =
        st.allProvidedInputs ++ [v] ∧
      (one_time_input_mock prompt st).2.providedInputValueForNextCall = none) ∧
    (∀ (prompt : String) (st : InputState),
      ¬st.nextInputIndex < st.allProvidedInputs.length →
      st.providedInputValueForNextCall = none →
      one_time_input_mock prompt st = custom_input_handler prompt st ∧
      (one_time_input_mock prompt st).1 = .waitingForInput prompt) ∧
    (∀ (evs : List LineData) (prompt : String) (w : World) (fs : String),
      (run_debugger (.waiting evs prompt) w fs).finished = false) ∧
    (∀ (evs : List LineData) (prompt : String) (w : World) (fs : String),
      evs ≠ [] →
      ((run_debugger (.waiting evs prompt) w fs).trace.getLast?).map
        Step.inputRequest = some (some prompt)) := by
  refine ⟨?_, ?_, ?_, ?_, ?_⟩
  · intro prompt st h
    unfold one_time_input_mock
    rw [dif_pos h]
    exact ⟨rfl, rfl, rfl⟩
  · intro prompt st v h hv
    unfold one_time_input_mock
    rw [dif_neg h, hv]
    exact ⟨rfl, rfl, rfl⟩
  · intro prompt st h hv
    unfold one_time_input_mock
    rw [dif_neg h, hv]
    exact ⟨rfl, rfl⟩
  · intro evs prompt w fs
    rfl
  · intro evs prompt w fs hne
    show ((finalizeRun (.waiting evs prompt) fs).1.getLast?).map
      Step.inputRequest = some (some prompt)
    unfold finalizeRun
    dsimp only
    rw [updateLast_getLast?]
    have hlen2 := (runTraceEvents_indices evs none).2
    have hcur := foldTrace_currentStep evs ⟨[], 0, false⟩
    have hne' : (runTraceEvents evs none).executionTrace ≠ [] := by
      intro hemp
      rw [hemp] at hlen2
      have : (runTraceEvents evs none).currentStep = 0 := by simpa using hlen2.symm
      rw [show (runTraceEvents evs none).currentStep =
        (evs.foldl user_line_record ⟨[], 0, false⟩).currentStep from rfl, hcur] at this
      simp only [Nat.zero_add] at this
      exact hne (List.eq_nil_of_length_eq_zero this)
    cases hlast : (runTraceEvents evs none).executionTrace.getLast? with
    | none =>
      exfalso
      cases htr : (runTraceEvents evs none).executionTrace with
      | nil => exact hne' htr
      | cons x xs =>
        rw [htr] at hlast
        exact absurd hlast (getLast?_cons_ne_none x xs)
    | some s => rfl

/-- A suspended read on a session with no recorded and no staged input, and
the run-level effects of the resulting suspension. -/
theorem C5_console_read_protocol_witness :
    ((one_time_input_mock "? " ⟨[], 0, none, ""⟩).1 = .waitingForInput "? ") ∧
    (run_debugger (.waiting [⟨1, "x = input()", ""⟩] "? ")
      ⟨.hostStdout, .hostInput⟩ "? ").finished = false ∧
    ((run_debugger (.waiting [⟨1, "x = input()", ""⟩] "? ")
      ⟨.hostStdout, .hostInput⟩ "? ").trace.getLast?).map Step.inputRequest =
      some (some "? ") :=
  ⟨(C5_console_read_protocol.2.2.1 "? " ⟨[], 0, none, ""⟩ (by decide) rfl).2,
   C5_console_read_protocol.2.2.2.1 [⟨1, "x = input()", ""⟩] "? "
     ⟨.hostStdout, .hostInput⟩ "? ",
   C5_console_read_protocol.2.2.2.2 [⟨1, "x = input()", ""⟩] "? "
     ⟨.hostStdout, .hostInput⟩ "? " (by decide)⟩

/-! ### `sanitize_traceback_paths` (claim C9)

The sanitizer walks the traceback's lines.  The OS-dependent calls it makes
(`os.path.abspath`, `os.path.basename`, the script path, `sys.prefix`) are
fields of an environment record; `abspath` returns `none` where CPython
would raise (the `except` at line 73).  The fixed regular expression
`File "([^"]+)"(, line \d+, in .*)?` is implemented directly: leftmost
match, greedy non-quote path of at least one character, optional
location suffix. -/

structure SanEnv where
  debuggerScriptAbs : String
  stdLibRoot : String
  abspath : String → Option String
  basename : String → String

/-- Strip a literal from the front of a character list. -/
def stripLit (pat l : List Char) : Option (List Char) :=
  if pat.isPrefixOf l then some (l.drop pat.length) else none

/-- Does `l` match `, line \d+, in .*` entirely (the optional group 2)? -/
def matchGroup2 (l : List Char) : Bool :=
  match stripLit ", line ".data l with
  | none => false
  | some l1 =>
    let digits := l1.takeWhile Char.isDigit
    let r := l1.dropWhile Char.isDigit
    !digits.isEmpty && ", in ".data.isPrefixOf r

/-- Try the pattern at the current position: `File "` then one or more
non-quote characters, a quote, and the optional group 2 (empty string when
it does not match). -/
def fileRefAt (l : List Char) : Option (String × String) :=
  match stripLit "File \"".data l with
  | none => none
  | some l1 =>
    let path := l1.takeWhile (fun c => c != '"')
    let rest := l1.dropWhile (fun c => c != '"')
    match rest with
    | '"' :: r2 =>
      if path.isEmpty then none
      else some (⟨path⟩, if matchGroup2 r2 then ⟨r2⟩ else "")
    | _ => none

/-- `re.search`: try the pattern at each position, left to right. -/
def searchFileRef : List Char → Option (String × String)
  | [] => none
  | c :: rest =>
    match fileRefAt (c :: rest) with
    | some r => some r
    | none => searchFileRef rest

/-- Lines 50-74: turn one matched file path into its display label, and
report whether this is the user-submission marker. -/
def classifyDisplay (env : SanEnv) (filepathRaw : String) : String × Bool :=
  let filename := env.basename filepathRaw
  if filepathRaw == "<string>" then ("Your Code", true)
  else
    match env.abspath filepathRaw with
    | none => ("<External Code (" ++ filename ++ ")> (Path Error)", false)
    | some absFp =>
      if absFp == env.debuggerScriptAbs then
        ("<Debugger Internals (" ++ filename ++ ")>", false)
      else if strStarts absFp env.stdLibRoot || strContains filename "bdb.py" ||
          strContains (backslashToSlash (strLower absFp)) "flask" then
        let libType :=
          if strContains filename "bdb.py" then "Python Debugger Library"
          else if strContains (backslashToSlash (strLower absFp)) "flask" then
            "Flask Internals"
          else "Python System Library"
        ("<" ++ libType ++ " (" ++ filename ++ ")>", false)
      else ("<External Code (" ++ filename ++ ")>", false)

/-- Lines 43-75: rewrite one line; the second component is
`current_line_is_user_code_marker`. -/
def rewriteLine (env : SanEnv) (line : String) : String × Bool :=
  if strStarts (strStrip line) "File \"" then
    match searchFileRef line.data with
    | some (fp, rest) =>
      let cls := classifyDisplay env fp
      ("  File \"" ++ cls.1 ++ "\"" ++ rest, cls.2)
    | none => (line, false)
  else (line, false)

/-- With `originated_in_user_code` set, lines are dropped until the first
user-code marker line; from there on every (rewritten) line is kept. -/
def dropUntilUserFrames (env : SanEnv) : List String → List String
  | [] => []
  | l :: rest =>
    let r := rewriteLine env l
    if r.2 then r.1 :: rest.map (fun l2 => (rewriteLine env l2).1)
    else dropUntilUserFrames env rest

def anyUserMarker (env : SanEnv) (ls : List String) : Bool :=
  ls.any (fun l => (rewriteLine env l).2)

/-- `sanitize_traceback_paths` at the line-list level (lines 22-85): the
first summary line is kept verbatim; each further line is rewritten; with
`originated_in_user_code` the prefix before the first user-code marker is
dropped, and when that would drop everything (and there is more than the
summary line) the function retries with the flag cleared. -/
def sanitize_traceback_lines (env : SanEnv) (orig : Bool)
    (lines : List String) : List String :=
  match lines with
  | [] => []
  | l0 :: rest =>
    if orig then
      if anyUserMarker env rest then l0 :: dropUntilUserFrames env rest
      else if rest.length > 0 then
        l0 :: rest.map (fun l => (rewriteLine env l).1)
      else [l0]
    else l0 :: rest.map (fun l => (rewriteLine env l).1)

/-- `sanitize_traceback_paths(traceback_str, originated_in_user_code)`:
split into lines, sanitize, rejoin. -/
def sanitize_traceback_paths (env : SanEnv) (s : String) (orig : Bool) :
    String :=
  match splitlines s with
  | [] => s
  | lines => String.intercalate "\n" (sanitize_traceback_lines env orig lines)

/-- The fixed display labels: the user-submission marker, the debugger
internals label, the three engine/library labels, and the external-code
labels — every one built from the file's basename only. -/
def IsSanitizedLabel (env : SanEnv) (fp : String) (d : String) : Prop :=
  d = "Your Code" ∨
  d = "<Debugger Internals (" ++ env.basename fp ++ ")>" ∨
  d = "<Python System Library (" ++ env.basename fp ++ ")>" ∨
  d = "<Python Debugger Library (" ++ env.basename fp ++ ")>" ∨
  d = "<Flask Internals (" ++ env.basename fp ++ ")>" ∨
  d = "<External Code (" ++ env.basename fp ++ ")>" ∨
  d = "<External Code (" ++ env.basename fp ++ ")> (Path Error)"

theorem classifyDisplay_label (env : SanEnv) (fp : String) :
    IsSanitizedLabel env fp (classifyDisplay env fp).1 := by
  unfold classifyDisplay IsSanitizedLabel
  dsimp only
  split
  · left; rfl
  · cases env.abspath fp with
    | none => right; right; right; right; right; right; rfl
    | some absFp =>
      dsimp only
      split
      · right; left; rfl
      · split
        · dsimp only
          split
          · right; right; right; left; rfl
          · split
            · right; right; right; right; left; rfl
            · right; right; left; rfl
        · right; right; right; right; right; left; rfl

theorem dropUntilUserFrames_cons (env : SanEnv) (l : String)
    (rest : List String) :
    dropUntilUserFrames env (l :: rest) =
      if (rewriteLine env l).2 then
        (rewriteLine env l).1 :: rest.map (fun l2 => (rewriteLine env l2).1)
      else dropUntilUserFrames env rest := rfl

theorem dropUntilUserFrames_provenance (env : SanEnv) :
    ∀ (ls : List String) (o : String), o ∈ dropUntilUserFrames env ls →
      ∃ l ∈ ls, o = (rewriteLine env l).1 := by
  intro ls
  induction ls with
  | nil => intro o ho; simp [dropUntilUserFrames] at ho
  | cons l rest ih =>
    intro o ho
    rw [dropUntilUserFrames_cons] at ho
    split at ho
    · rcases List.mem_cons.1 ho with ho | ho
      · exact ⟨l, List.mem_cons_self _ _, ho⟩
      · obtain ⟨l2, hl2, ho⟩ := List.mem_map.1 ho
        exact ⟨l2, List.mem_cons_of_mem _ hl2, ho.symm⟩
    · obtain ⟨l2, hl2, ho⟩ := ih o ho
      exact ⟨l2, List.mem_cons_of_mem _ hl2, ho⟩

/-- C9: (1) the first summary line of the traceback is preserved verbatim;
(2) every frame-location line — a line whose stripped text starts with
`File "` and in which the location pattern matches — is rewritten so that
its file reference becomes one of the fixed labels, each built from the
file's basename only (so no absolute file-system path survives in it),
followed by the preserved `, line N, in ...` suffix; (3) every output line
beyond the first is the rewrite of some input line beyond the first. -/
theorem C9_sanitizer_labels (env : SanEnv) (orig : Bool)
    (lines : List String) (line fp rest : String) :
    ((sanitize_traceback_lines env orig lines).head? = lines.head?) ∧
    (strStarts (strStrip line) "File \"" = true →
      searchFileRef line.data = some (fp, rest) →
      (rewriteLine env line).1 =
        "  File \"" ++ (classifyDisplay env fp).1 ++ "\"" ++ rest ∧
      IsSanitizedLabel env fp (classifyDisplay env fp).1) ∧
    (∀ o ∈ sanitize_traceback_lines env orig lines,
      o ∈ lines.take 1 ∨ ∃ l ∈ lines.drop 1, o = (rewriteLine env l).1) := by
  refine ⟨?_, ?_, ?_⟩
  · unfold sanitize_traceback_lines
    cases lines with
    | nil => rfl
    | cons l0 rest0 =>
      dsimp only
      split
      · split
        · rfl
        · split
          · rfl
          · rfl
      · rfl
  · intro hfl hsearch
    unfold rewriteLine
    rw [hfl, hsearch]
    exact ⟨by simp, classifyDisplay_label env fp⟩
  · intro o ho
    unfold sanitize_traceback_lines at ho
    cases lines with
    | nil => simp at ho
    | cons l0 rest0 =>
      dsimp only at ho
      have hbase : o ∈ l0 :: rest0.map (fun l => (rewriteLine env l).1) →
          o ∈ (l0 :: rest0).take 1 ∨
            ∃ l ∈ (l0 :: rest0).drop 1, o = (rewriteLine env l).1 := by
        intro hm
        rcases List.mem_cons.1 hm with hm | hm
        · exact Or.inl (by simp [hm])
        · obtain ⟨l2, hl2, he⟩ := List.mem_map.1 hm
          exact Or.inr ⟨l2, by simpa using hl2, he.symm⟩
      split at ho
      · split at ho
        · rcases List.mem_cons.1 ho with hm | hm
          · exact Or.inl (by simp [hm])
          · obtain ⟨l2, hl2, he⟩ := dropUntilUserFrames_provenance env rest0 o hm
            exact Or.inr ⟨l2, by simpa using hl2, he⟩
        · split at ho
          · exact hbase ho
          · rw [List.mem_singleton] at ho
            exact Or.inl (by simp [ho])
      · exact hbase ho

/-- A concrete sanitizer environment and a runtime-failure frame line. -/
def sanEnv0 : SanEnv :=
  ⟨"/app/a.py", "/usr", fun s => some s, fun s => s⟩

theorem C9_sanitizer_labels_witness :
    (rewriteLine sanEnv0 "  File \"/home/user/secret/x.py\", line 7, in f").1 =
      "  File \"" ++
        (classifyDisplay sanEnv0 "/home/user/secret/x.py").1 ++ "\"" ++
        ", line 7, in f" ∧
    IsSanitizedLabel sanEnv0 "/home/user/secret/x.py"
      (classifyDisplay sanEnv0 "/home/user/secret/x.py").1 :=
  (C9_sanitizer_labels sanEnv0 false []
    "  File \"/home/user/secret/x.py\", line 7, in f"
    "/home/user/secret/x.py" ", line 7, in f").2.1 (by decide) (by decide)

end CodeVisualizer
